import Mathlib

/-!
Verification of the `gowanus` data-preparation scripts.

This file gives a shallow embedding of the two Python scripts
`generate_deckgl_data.py` and `generate_brooklyn_bids_table.py` and proves
properties of the embedded definitions.

Modelling conventions:
* Python `float` values are modelled by `ℚ` (exact rational arithmetic).
  The claims under scrutiny are about control flow, ordering and exact
  decimal constants, none of which depend on binary rounding.
* Python `float(s)` string conversion is modelled by `pyFloat`, covering the
  sign / integer / fraction / exponent forms (the `inf`/`nan`/underscore
  forms never occur in the data handled by the scripts).
* A Python `dict` with string keys is modelled as an association list
  `List (String × α)` in insertion order; assignment is `upsert`.
* Code that can raise an exception is modelled in `Except Unit`.
* The IEEE infinities produced by `float("inf")`/`float("-inf")` in
  `bounding_box` are modelled by the type `PyNum`.
-/

/- Batteries marks the arithmetic of `Rat` `[irreducible]`, which blocks
`decide`/`rfl` evaluation of the embedded functions on concrete inputs;
restore the default reducibility (the kernel ignores the attribute either
way, so no proof becomes stronger or weaker by this). -/
attribute [local semireducible] Rat.mul Rat.inv Rat.add Rat.sub Rat.ofScientific

/-- The whitespace characters stripped by Python's `str.strip()` /
`str.split()` (ASCII part, which is all that occurs here). -/
def isPySpace (c : Char) : Bool :=
  c = ' ' || c = '\t' || c = '\n' || c = '\r' || c = '\x0b' || c = '\x0c'

/-- Python `str.strip()`. -/
def pyStrip (cs : List Char) : List Char :=
  ((cs.dropWhile isPySpace).reverse.dropWhile isPySpace).reverse

/-- Python `str.upper()` (ASCII). -/
def pyUpper (cs : List Char) : List Char :=
  cs.map Char.toUpper

/-- Python `s.startswith(pat)`: first argument is the pattern. -/
def pyStartsWith : List Char → List Char → Bool
  | [], _ => true
  | _ :: _, [] => false
  | p :: ps, c :: cs => p = c && pyStartsWith ps cs

/-- Python `s.split(",")` — keeps empty fields, `"".split(",") == [""]`. -/
def splitOnComma : List Char → List (List Char)
  | [] => [[]]
  | c :: rest =>
    if c = ',' then [] :: splitOnComma rest
    else
      match splitOnComma rest with
      | g :: gs => (c :: g) :: gs
      | [] => [[c]]

/-- Worker for `splitWs`; `cur` is the current token, reversed. -/
def splitWsGo : List Char → List Char → List (List Char)
  | [], cur => if cur = [] then [] else [cur.reverse]
  | c :: rest, cur =>
    if isPySpace c then
      if cur = [] then splitWsGo rest []
      else cur.reverse :: splitWsGo rest []
    else splitWsGo rest (c :: cur)

/-- Python `str.split()` with no argument: split on whitespace runs,
discarding empty tokens. -/
def splitWs (cs : List Char) : List (List Char) :=
  splitWsGo cs []

/-- Value of a string of decimal digit characters, most significant first. -/
def digitsToNat (cs : List Char) : Nat :=
  cs.foldl (fun a c => 10 * a + (c.toNat - 48)) 0

/-- The optional-sign prefix of Python's float syntax: returns
(is-negative, remainder). -/
def pySign : List Char → Bool × List Char
  | '+' :: r => (false, r)
  | '-' :: r => (true, r)
  | t => (false, t)

/-- The optional `.digits` fraction of Python's float syntax: returns
(fraction digits, remainder). -/
def pyFrac : List Char → List Char × List Char
  | '.' :: r => r.span Char.isDigit
  | t => ([], t)

/-- The optional `(e|E)[sign]digits` exponent suffix of Python's float
syntax, applied to the already-parsed mantissa. -/
def pyExpPart (signed : ℚ) : List Char → Option ℚ
  | [] => some signed
  | e :: r3 =>
    if e = 'e' ∨ e = 'E' then
      let eu := pySign r3
      let edr := eu.2.span Char.isDigit
      if edr.1 = [] ∨ edr.2 ≠ [] then none
      else
        let ex : ℤ := if eu.1 then -(digitsToNat edr.1 : ℤ) else (digitsToNat edr.1 : ℤ)
        some (signed * (10 : ℚ) ^ ex)
    else none

/-- Python `float(s)` on a string: strips whitespace, then parses
`[sign] digits [.digits] [(e|E) [sign] digits]` (at least one mantissa
digit required); `none` models a raised `ValueError`. -/
def pyFloat (s : List Char) : Option ℚ :=
  let su := pySign (pyStrip s)
  let ipr := su.2.span Char.isDigit
  let fpr := pyFrac ipr.2
  if ipr.1 = [] ∧ fpr.1 = [] then none
  else
    let mant : ℚ := (digitsToNat (ipr.1 ++ fpr.1) : ℚ) / ((10 : ℚ) ^ fpr.1.length)
    let signed : ℚ := if su.1 then -mant else mant
    pyExpPart signed fpr.2

/-- State of the top-level bracket scan in `parse_wkt_multipolygon`:
`depth` is the paren depth (an `Int`, since the Python counter can go
negative on unbalanced input), `cur` is `some` of the characters of the
block opened at depth 0 (inclusive of its parens so far), `acc` collects
the completed blocks in reverse. -/
structure ScanSt where
  depth : Int
  cur : Option (List Char)
  acc : List (List Char)
deriving Repr, DecidableEq

/-- One character of the top-level block scan (the first `for i, ch in
enumerate(inner)` loop of `parse_wkt_multipolygon`). -/
def scanStep (st : ScanSt) (c : Char) : ScanSt :=
  if c = '(' then
    { depth := st.depth + 1
      cur := if st.depth = 0 then some [c] else st.cur.map (fun s => s ++ [c])
      acc := st.acc }
  else if c = ')' then
    if st.depth - 1 = 0 then
      match st.cur with
      | some s => { depth := st.depth - 1, cur := none, acc := (s ++ [c]) :: st.acc }
      | none => { depth := st.depth - 1, cur := none, acc := st.acc }
    else
      { depth := st.depth - 1, cur := st.cur.map (fun s => s ++ [c]), acc := st.acc }
  else
    { depth := st.depth, cur := st.cur.map (fun s => s ++ [c]), acc := st.acc }

/-- The list of top-level balanced `(...)` blocks of `inner`, in order. -/
def scanBlocks (cs : List Char) : List (List Char) :=
  (cs.foldl scanStep ⟨0, none, []⟩).acc.reverse

/-- The second scanning loop of `parse_wkt_multipolygon`: find the first
balanced paren group of a polygon block and return its contents (exclusive
of the outer parens); `cur` holds the content accumulated so far. -/
def extractFirstRing : List Char → Int → Option (List Char) → Option (List Char)
  | [], _, _ => none
  | c :: rest, depth, cur =>
    if c = '(' then
      extractFirstRing rest (depth + 1)
        (if depth = 0 then some [] else cur.map (fun s => s ++ [c]))
    else if c = ')' then
      if depth - 1 = 0 then
        match cur with
        | some s => some s
        | none => extractFirstRing rest (depth - 1) none
      else
        extractFirstRing rest (depth - 1) (cur.map (fun s => s ++ [c]))
    else
      extractFirstRing rest depth (cur.map (fun s => s ++ [c]))

/-- Processing of one comma-separated coordinate pair of a ring:
`pair.strip().split()`, then `float` on the first two tokens when there
are at least two (`.ok none` = pair skipped, `.error` = `float` raised). -/
def parsePair (pair : List Char) : Except Unit (Option (ℚ × ℚ)) :=
  match splitWs (pyStrip pair) with
  | p0 :: p1 :: _ =>
    match pyFloat p0, pyFloat p1 with
    | some x, some y => .ok (some (x, y))
    | _, _ => .error ()
  | _ => .ok none

/-- The `for pair in ring_str.split(",")` loop building `coords`. -/
def collectCoords : List (List Char) → Except Unit (List (ℚ × ℚ))
  | [] => .ok []
  | p :: ps =>
    match parsePair p with
    | .error u => .error u
    | .ok none => collectCoords ps
    | .ok (some c) =>
      match collectCoords ps with
      | .error u => .error u
      | .ok rest => .ok (c :: rest)

/-- Processing of one polygon block: strip outer parens, extract the first
(exterior) ring, parse its coordinates; `.ok none` when the block
contributes no ring. -/
def processBlock (block : List Char) : Except Unit (Option (List (ℚ × ℚ))) :=
  let b1 := pyStrip block
  let b2 := if b1.head? = some '(' then b1.drop 1 else b1
  let b3 := if b2.getLast? = some ')' then b2.dropLast else b2
  match extractFirstRing b3 0 none with
  | none => .ok none
  | some ringStr =>
    match collectCoords (splitOnComma ringStr) with
    | .error u => .error u
    | .ok coords => .ok (if coords = [] then none else some coords)

/-- The `for poly_block in polygons` loop of `parse_wkt_multipolygon`. -/
def processBlocks : List (List Char) → Except Unit (List (List (ℚ × ℚ)))
  | [] => .ok []
  | b :: bs =>
    match processBlock b with
    | .error u => .error u
    | .ok none => processBlocks bs
    | .ok (some r) =>
      match processBlocks bs with
      | .error u => .error u
      | .ok rest => .ok (r :: rest)

/-- The characters of the `MULTIPOLYGON` keyword. -/
def mpHeader : List Char := "MULTIPOLYGON".data

/-- `parse_wkt_multipolygon` on the character list of the input. -/
def parseWktCore (wkt : List Char) : Except Unit (List (List (ℚ × ℚ))) :=
  let inner0 := pyStrip wkt
  let inner1 :=
    if pyStartsWith mpHeader (pyUpper inner0) then pyStrip (inner0.drop mpHeader.length)
    else inner0
  let inner2 :=
    if inner1.head? = some '(' ∧ inner1.getLast? = some ')' then
      pyStrip (inner1.drop 1).dropLast
    else inner1
  processBlocks (scanBlocks inner2)

/-- `parse_wkt_multipolygon(wkt)`: parse a WKT MULTIPOLYGON string into the
list of exterior rings, one per polygon part; `.error` models an uncaught
`ValueError` raised by `float`. -/
def parse_wkt_multipolygon (wkt : String) : Except Unit (List (List (ℚ × ℚ))) :=
  parseWktCore wkt.data

/-- A polygon ring: a list of `(lon, lat)` pairs. -/
abbrev PolyRing := List (ℚ × ℚ)

/-- The boundary mapping `{name: [rings]}` — a Python `dict` in insertion
order, modelled as an association list. -/
abbrev Boundaries := List (String × List PolyRing)

/-- The `(ring[i], ring[j])` vertex pairs visited by the `point_in_ring`
loop: `j` starts at `n - 1` and then trails `i` by one. -/
def edgePairs (ring : PolyRing) : List ((ℚ × ℚ) × (ℚ × ℚ)) :=
  match ring.getLast? with
  | none => []
  | some last => ring.zip (last :: ring.dropLast)

/-- One iteration of the `point_in_ring` loop (total model: `ℚ` division
is total, and the divisor is nonzero whenever the branch is taken — see
`pointInRingE_eq_ok`). -/
def edgeCross (lon lat : ℚ) (inside : Bool) (e : (ℚ × ℚ) × (ℚ × ℚ)) : Bool :=
  let xi := e.1.1
  let yi := e.1.2
  let xj := e.2.1
  let yj := e.2.2
  if (decide (yi > lat) != decide (yj > lat)) &&
      decide (lon < (xj - xi) * (lat - yi) / (yj - yi) + xi) then
    !inside
  else inside

/-- `point_in_ring(lon, lat, ring)`: ray-casting point-in-polygon test. -/
def point_in_ring (lon lat : ℚ) (ring : PolyRing) : Bool :=
  (edgePairs ring).foldl (edgeCross lon lat) false

/-- One iteration of the `point_in_ring` loop with the Python evaluation
order made explicit: the comparison `(yi > lat) != (yj > lat)` is evaluated
first, and only if it is true is the division `(lat - yi) / (yj - yi)`
evaluated — `.error ()` models a raised `ZeroDivisionError`. -/
def edgeCrossE (lon lat : ℚ) (st : Except Unit Bool) (e : (ℚ × ℚ) × (ℚ × ℚ)) :
    Except Unit Bool :=
  match st with
  | .error u => .error u
  | .ok inside =>
    let xi := e.1.1
    let yi := e.1.2
    let xj := e.2.1
    let yj := e.2.2
    if decide (yi > lat) != decide (yj > lat) then
      if yj - yi = 0 then .error ()
      else .ok (if lon < (xj - xi) * (lat - yi) / (yj - yi) + xi then !inside else inside)
    else .ok inside

/-- `point_in_ring` with division-by-zero modelled as an exception. -/
def pointInRingE (lon lat : ℚ) (ring : PolyRing) : Except Unit Bool :=
  (edgePairs ring).foldl (edgeCrossE lon lat) (.ok false)

/-- `find_bid(lon, lat, boundaries)`: the name of the first boundary (in
iteration order) one of whose rings contains the point. -/
def find_bid (lon lat : ℚ) : Boundaries → Option String
  | [] => none
  | (name, rings) :: rest =>
    if rings.any (fun ring => point_in_ring lon lat ring) then some name
    else find_bid lon lat rest

/-- A Python `float` as used in `bounding_box`: either finite (a rational)
or one of the two infinities `float("inf")` / `float("-inf")`. -/
inductive PyNum where
  | neginf
  | fin (q : ℚ)
  | posinf
deriving Repr, DecidableEq

/-- Python `min(m, q)` with `m` possibly infinite and `q` finite. -/
def PyNum.minQ : PyNum → ℚ → PyNum
  | .neginf, _ => .neginf
  | .posinf, q => .fin q
  | .fin p, q => .fin (min p q)

/-- Python `max(m, q)` with `m` possibly infinite and `q` finite. -/
def PyNum.maxQ : PyNum → ℚ → PyNum
  | .posinf, _ => .posinf
  | .neginf, q => .fin q
  | .fin p, q => .fin (max p q)

/-- Subtraction of a finite value (infinities absorb). -/
def PyNum.subQ : PyNum → ℚ → PyNum
  | .neginf, _ => .neginf
  | .posinf, _ => .posinf
  | .fin p, q => .fin (p - q)

/-- Addition of a finite value (infinities absorb). -/
def PyNum.addQ : PyNum → ℚ → PyNum
  | .neginf, _ => .neginf
  | .posinf, _ => .posinf
  | .fin p, q => .fin (p + q)

/-- The four accumulator variables of `bounding_box`. -/
structure BBSt where
  min_lon : PyNum
  max_lon : PyNum
  min_lat : PyNum
  max_lat : PyNum
deriving Repr, DecidableEq

/-- One coordinate of the `bounding_box` triple loop. -/
def bbStep (st : BBSt) (c : ℚ × ℚ) : BBSt :=
  { min_lon := st.min_lon.minQ c.1
    max_lon := st.max_lon.maxQ c.1
    min_lat := st.min_lat.minQ c.2
    max_lat := st.max_lat.maxQ c.2 }

/-- `min_lon = min_lat = float("inf"); max_lon = max_lat = float("-inf")`. -/
def bbInit : BBSt :=
  ⟨.posinf, .neginf, .posinf, .neginf⟩

/-- `bounding_box(boundaries)`: fold all coordinates of all rings, then
apply the `0.002` degree buffer; returns
`(min_lon - buf, min_lat - buf, max_lon + buf, max_lat + buf)`. -/
def bounding_box (boundaries : Boundaries) : PyNum × PyNum × PyNum × PyNum :=
  let st := boundaries.foldl
    (fun st nr => nr.2.foldl (fun st ring => ring.foldl bbStep st) st) bbInit
  (st.min_lon.subQ 0.002, st.min_lat.subQ 0.002, st.max_lon.addQ 0.002, st.max_lat.addQ 0.002)

/-- The pagination loop of `fetch_pluto`, against an abstract Socrata
backend holding `rows` (already filtered and ordered server-side): a page
request at `offset` returns `rows[offset : offset + pageSize]`.  Returns
the accumulated `all_rows` together with the list of offsets requested. -/
def fetch_pluto_run [DecidableEq α] (rows : List α) (pageSize : Nat) (offset : Nat) :
    List α × List Nat :=
  let batch := (rows.drop offset).take pageSize
  if h1 : batch = [] then ([], [offset])
  else if batch.length < pageSize then (batch, [offset])
  else
    let r := fetch_pluto_run rows pageSize (offset + pageSize)
    (batch ++ r.1, offset :: r.2)
termination_by rows.length - offset
decreasing_by
  have h1' : ¬ ((rows.drop offset).take pageSize = []) := h1
  rw [List.take_eq_nil_iff] at h1'
  push_neg at h1'
  obtain ⟨hp, hd⟩ := h1'
  rw [ne_eq, List.drop_eq_nil_iff] at hd
  omega

/-- Round to the nearest integer, ties to the even integer — the rounding
used by Python's fixed-point string formatting. -/
def roundHalfEven (q : ℚ) : ℤ :=
  let f := ⌊q⌋
  let frac := q - f
  if frac < 1/2 then f
  else if 1/2 < frac then f + 1
  else if f % 2 = 0 then f else f + 1

/-- Python `f"{q:.0f}"`: the sign is taken from the value itself, so a
negative value that rounds to zero prints `-0`. -/
def fmtFixed0 (q : ℚ) : String :=
  let n := roundHalfEven q
  let sgn := if q < 0 then "-" else ""
  sgn ++ toString n.natAbs

/-- Python `f"{q:.1f}"`: same sign-of-value convention as `fmtFixed0`, so
e.g. `-0.04` prints `-0.0`. -/
def fmtFixed1 (q : ℚ) : String :=
  let n := roundHalfEven (q * 10)
  let sgn := if q < 0 then "-" else ""
  sgn ++ toString (n.natAbs / 10) ++ "." ++ toString (n.natAbs % 10)

/-- `format_currency(val)` from `generate_brooklyn_bids_table.py`; `none`
models a missing (`pd.isna`) value. -/
def format_currency (val : Option ℚ) : String :=
  match val with
  | none => "—"
  | some v =>
    if v = 0 then "—"
    else if v ≥ 1000000 then "$" ++ fmtFixed1 (v / 1000000) ++ "M"
    else if v ≥ 1000 then "$" ++ fmtFixed0 (v / 1000) ++ "K"
    else "$" ++ fmtFixed0 v

/-- A JSON field value as consumed through `float(row.get(key, 0))`:
`missing` models an absent key (`row.get` returns the default `0`), and
`value o` models a present JSON value on which `float(...)` yields `o`
(`none` when `float` raises `ValueError`/`TypeError`, e.g. for `null` or a
non-numeric string). -/
inductive FloatField where
  | missing
  | value (toNum : Option ℚ)
deriving Repr, DecidableEq

/-- Result of `float(row.get(key, 0))`: `none` = exception raised. -/
def pyFloatOfGet : FloatField → Option ℚ
  | .missing => some 0
  | .value o => o

/-- `x = 0; try: x = float(row.get(key, 0) or 0) except ...: pass` —
defensive coercion: any missing, falsy or unparseable value becomes `0`. -/
def defFloat (f : FloatField) : ℚ :=
  (pyFloatOfGet f).getD 0

/-- Python `int(q)` on a float: truncation toward zero. -/
def pyInt (q : ℚ) : ℤ :=
  q.num.tdiv q.den

/-- One fetched PLUTO row, restricted to the fields the script reads. -/
structure InRow where
  longitude : FloatField := .missing
  latitude : FloatField := .missing
  assesstot : FloatField := .missing
  assessland : FloatField := .missing
  numfloors : FloatField := .missing
  yearbuilt : FloatField := .missing
  lotarea : FloatField := .missing
  address : String := ""
  bbl : String := ""
  bldgclass : String := ""
  landuse : String := ""
deriving Repr, DecidableEq

/-- The coordinate gate at the top of the Step C loop:
`lon = float(row.get("longitude", 0)); lat = float(row.get("latitude", 0))`
inside one `try/except` (`none` = `continue`), then
`if lon == 0 or lat == 0: continue`. -/
def rowCoords (r : InRow) : Option (ℚ × ℚ) :=
  match pyFloatOfGet r.longitude with
  | none => none
  | some lon =>
    match pyFloatOfGet r.latitude with
    | none => none
    | some lat => if lon = 0 ∨ lat = 0 then none else some (lon, lat)

/-- The 24 BID names of the `BROOKLYN_BIDS` constant, in source order. -/
def BROOKLYN_BIDS : List String :=
  [ "86th Street Bay Ridge"
  , "Atlantic Avenue"
  , "Bay Ridge 5th Avenue"
  , "Bed-Stuy Gateway"
  , "Brighton Beach"
  , "Church Flatbush Community Alliance"
  , "Court-Livingston-Schermerhorn"
  , "Cypress Hills Fulton"
  , "DUMBO"
  , "East Brooklyn"
  , "Flatbush-Nostrand Junction"
  , "Fulton Area Business (FAB) Alliance"
  , "Fulton Mall Improvement Association"
  , "Gowanus BID (Proposed)"
  , "Graham Avenue"
  , "Grand Street"
  , "Kings Highway"
  , "MetroTech"
  , "Montague Street"
  , "Myrtle Avenue Brooklyn Partnership"
  , "North Flatbush"
  , "Park Slope 5th Avenue"
  , "Pitkin Avenue"
  , "Sunset Park" ]

/-- `BID_COLORS = {name: [128, 128, 128] for name in BROOKLYN_BIDS}`. -/
def BID_COLORS : List (String × List Nat) :=
  BROOKLYN_BIDS.map (fun n => (n, [128, 128, 128]))

/-- Python `d.get(k, default)` on a string-keyed dict. -/
def dictGet (l : List (String × α)) (k : String) (d : α) : α :=
  match l.find? (fun p => p.1 == k) with
  | some p => p.2
  | none => d

/-- One record of the exported `parcels` list. -/
structure Parcel where
  lat : ℚ
  lon : ℚ
  assesstot : ℚ
  assessland : ℚ
  address : String
  bbl : String
  bid_name : String
  bldgclass : String
  landuse : String
  yearbuilt : ℤ
  numfloors : ℚ
  lotarea : ℚ
  color : List Nat
deriving Repr, DecidableEq

/-- The body of the Step C loop of `main` for one row: `none` when the row
is skipped (bad/zero coordinates, or no boundary contains the point). -/
def processRow (boundaries : Boundaries) (r : InRow) : Option Parcel :=
  match rowCoords r with
  | none => none
  | some (lon, lat) =>
    match find_bid lon lat boundaries with
    | none => none
    | some name =>
      some { lat := lat
             lon := lon
             assesstot := defFloat r.assesstot
             assessland := defFloat r.assessland
             address := r.address
             bbl := r.bbl
             bid_name := name
             bldgclass := r.bldgclass
             landuse := r.landuse
             yearbuilt := pyInt (defFloat r.yearbuilt)
             numfloors := defFloat r.numfloors
             lotarea := defFloat r.lotarea
             color := dictGet BID_COLORS name [128, 128, 128] }

/-- The whole Step C loop: the `parcels` list built by `main`. -/
def buildParcels (rows : List InRow) (boundaries : Boundaries) : List Parcel :=
  rows.filterMap (processRow boundaries)

/-- The `GOWANUS_BOUNDARY` constant (30 vertices). -/
def GOWANUS_BOUNDARY : PolyRing :=
  [ (-73.98871236113611, 40.6852235692749)
  , (-73.98656632686861, 40.684387901353176)
  , (-73.98699969227908, 40.683765500363144)
  , (-73.98645689115888, 40.68355803207488)
  , (-73.98666481900734, 40.68325429733605)
  , (-73.98500577364807, 40.68259869031278)
  , (-73.98436666910332, 40.6835430943332)
  , (-73.9820772740561, 40.68265014324907)
  , (-73.98185949699375, 40.6829862461299)
  , (-73.97982727586435, 40.68216797788509)
  , (-73.98387639712381, 40.67614435139574)
  , (-73.98570616219023, 40.67397312303486)
  , (-73.98800431209425, 40.67508032553716)
  , (-73.98874190877774, 40.674180621155706)
  , (-73.9903232547831, 40.674983217807416)
  , (-73.99044582277797, 40.67536168816061)
  , (-73.99097986904138, 40.67549199434205)
  , (-73.99192101614494, 40.674349109154754)
  , (-73.99482325116658, 40.67583311313964)
  , (-73.99534854257324, 40.675454645462594)
  , (-73.99649542881106, 40.67406691226546)
  , (-73.99776488304373, 40.674704343540796)
  , (-73.99649105138268, 40.67744655650161)
  , (-73.99458577567648, 40.67657344282233)
  , (-73.9937551586398, 40.67783165243714)
  , (-73.991865203933, 40.67694775436462)
  , (-73.99042393563609, 40.67867819171676)
  , (-73.98827461829725, 40.68186174712512)
  , (-73.99042393563607, 40.68269744671996)
  , (-73.98871236113611, 40.6852235692749) ]

/-- Python dict assignment `d[k] = v` on the association-list model:
replaces in place when the key exists, otherwise appends. -/
def upsert (k : String) (v : α) : List (String × α) → List (String × α)
  | [] => [(k, v)]
  | (k', v') :: rest =>
    if k' = k then (k, v) :: rest else (k', v') :: upsert k v rest

/-- The row loop of `load_bid_boundaries`; a CSV row is abstracted to its
`(F_ALL_BI_2, the_geom)` columns.  `.error` propagates a `ValueError`
raised inside `parse_wkt_multipolygon`. -/
def loadRows (bid_names : List String) :
    List (String × String) → List (String × List PolyRing) →
      Except Unit (List (String × List PolyRing))
  | [], acc => .ok acc
  | (nameField, geomField) :: rest, acc =>
    let name := String.mk (pyStrip nameField.data)
    if name ∈ bid_names then
      match parse_wkt_multipolygon geomField with
      | .error u => .error u
      | .ok rings =>
        loadRows bid_names rest (if rings = [] then acc else upsert name rings acc)
    else loadRows bid_names rest acc

/-- `load_bid_boundaries(csv_path, bid_names)` over the abstracted rows. -/
def load_bid_boundaries (rows : List (String × String)) (bid_names : List String) :
    Except Unit (List (String × List PolyRing)) :=
  loadRows bid_names rows []

/-- Step A of `main`: load the CSV boundaries, then inject
`boundaries["Gowanus BID (Proposed)"] = [GOWANUS_BOUNDARY]`. -/
def assembleBoundaries (rows : List (String × String)) :
    Except Unit Boundaries :=
  match load_bid_boundaries rows BROOKLYN_BIDS with
  | .error u => .error u
  | .ok bs => .ok (upsert "Gowanus BID (Proposed)" [GOWANUS_BOUNDARY] bs)

/-- One GeoJSON boundary feature as built by `build_geojson_boundaries`. -/
structure Feature where
  name : String
  color : List Nat
  coordinates : List (List (List (List ℚ)))
deriving Repr, DecidableEq

/-- The feature built for one `(name, rings)` entry: a `MultiPolygon` in
which every stored ring becomes a one-ring polygon. -/
def featureOf (nr : String × List PolyRing) : Feature :=
  { name := nr.1
    color := dictGet BID_COLORS nr.1 [128, 128, 128]
    coordinates := nr.2.map (fun ring => [ring.map (fun c => [c.1, c.2])]) }

/-- `build_geojson_boundaries(boundaries)` (the `features` list). -/
def build_geojson_boundaries (bs : Boundaries) : List Feature :=
  bs.map featureOf

/-- The unit-square example ring from the specification. -/
def unitSquare : PolyRing :=
  [(0, 0), (0, 1), (1, 1), (1, 0)]

/-! ## Claim C2: division by zero in `point_in_ring` -/

/-- The crossing test `(yi > lat) != (yj > lat)` forces `yj - yi ≠ 0`, so
the exceptional model agrees with the total one on every single edge. -/
theorem edgeCrossE_eq_ok (lon lat : ℚ) (inside : Bool) (e : (ℚ × ℚ) × (ℚ × ℚ)) :
    edgeCrossE lon lat (.ok inside) e = .ok (edgeCross lon lat inside e) := by
  rcases e with ⟨⟨xi, yi⟩, ⟨xj, yj⟩⟩
  by_cases h : (decide (yi > lat) != decide (yj > lat)) = true
  · have hne : ¬ (yj - yi = 0) := by
      intro h0
      have hy : yj = yi := by linarith [sub_eq_zero.mp h0]
      rw [bne_iff_ne, ne_eq, decide_eq_decide] at h
      exact h (by rw [hy])
    simp only [edgeCrossE, edgeCross, h, hne, if_true, if_false, reduceIte, Bool.true_and]
    by_cases hlt : lon < (xj - xi) * (lat - yi) / (yj - yi) + xi <;> simp [hlt]
  · simp only [edgeCrossE, edgeCross, h, Bool.false_and, if_false]
    simp at h
    simp [h]

/-- The whole fold agrees, starting from any `inside` flag. -/
theorem foldl_edgeCrossE_ok (lon lat : ℚ) :
    ∀ (es : List ((ℚ × ℚ) × (ℚ × ℚ))) (inside : Bool),
      es.foldl (edgeCrossE lon lat) (.ok inside) = .ok (es.foldl (edgeCross lon lat) inside)
  | [], _ => rfl
  | e :: es, inside => by
    rw [List.foldl_cons, List.foldl_cons, edgeCrossE_eq_ok]
    exact foldl_edgeCrossE_ok lon lat es _

/-- C2 (counterexample): contrary to the claim, no input whatsoever makes
`point_in_ring` raise a division by zero — in particular no ring with a
horizontal edge at the query latitude does: when `yi == yj` the short-
circuited crossing test is false and the division is never evaluated. -/
theorem pointInRingE_never_errors :
    (¬ ∃ (lon lat : ℚ) (ring : PolyRing), pointInRingE lon lat ring = .error ()) ∧
    pointInRingE 1 0 [(0, 0), (2, 0), (2, 2), (0, 2)] = .ok true := by
  constructor
  · rintro ⟨lon, lat, ring, h⟩
    unfold pointInRingE at h
    rw [foldl_edgeCrossE_ok] at h
    exact absurd h (by simp)
  · rfl

/-- C2 (amended): evaluating `point_in_ring` never reaches the division
with a zero divisor; the exception-aware model always returns `.ok` of the
total ray-cast result, for every point and every ring — horizontal edges
(`yi == yj`) included, since the crossing test short-circuits them. -/
theorem pointInRingE_eq_ok (lon lat : ℚ) (ring : PolyRing) :
    pointInRingE lon lat ring = .ok (point_in_ring lon lat ring) :=
  foldl_edgeCrossE_ok lon lat (edgePairs ring) false

/-! ## Claim C4: `format_currency` -/

/-- C4 (counterexample): `f"${2500/1000:.0f}K"` rounds `2.5` to the even
integer `2`, so `format_currency(2500)` is `"$2K"`, not the claimed
`"$3K"`. -/
theorem format_currency_2500 :
    format_currency (some 2500) = "$2K" ∧ "$2K" ≠ "$3K" := by
  constructor
  · rfl
  · decide

/-- Rounding a nonnegative value gives a nonnegative integer. -/
lemma roundHalfEven_nonneg (v : ℚ) (h : 0 ≤ v) : 0 ≤ roundHalfEven v := by
  have hf : 0 ≤ ⌊v⌋ := Int.le_floor.mpr (by push_cast; linarith)
  simp only [roundHalfEven]
  split
  · exact hf
  · split
    · omega
    · split <;> omega

/-- A negative value no smaller than `-1/2` rounds to zero (half-to-even
sends `-1/2` itself to `0`). -/
lemma roundHalfEven_neg_small (v : ℚ) (h1 : -(1/2) ≤ v) (h2 : v < 0) :
    roundHalfEven v = 0 := by
  have hf : ⌊v⌋ = -1 := by
    rw [Int.floor_eq_iff]
    constructor
    · push_cast
      linarith
    · push_cast
      linarith
  simp only [roundHalfEven]
  rw [hf]
  rcases lt_or_eq_of_le h1 with hlt | heq
  · rw [if_neg (by push_cast; linarith), if_pos (by push_cast; linarith)]
    norm_num
  · rw [if_neg (by rw [← heq]; push_cast; norm_num),
      if_neg (by rw [← heq]; push_cast; norm_num), if_neg (by decide)]
    norm_num

/-- A value below `-1/2` rounds to a strictly negative integer. -/
lemma roundHalfEven_lt_zero (v : ℚ) (h : v < -(1/2)) : roundHalfEven v < 0 := by
  simp only [roundHalfEven]
  split
  · exact Int.floor_lt.mpr (by push_cast; linarith)
  · rename_i hc1
    split
    · rename_i hc2
      have hq : (⌊v⌋ : ℚ) < -1 := by linarith
      have hz : ⌊v⌋ < -1 := by exact_mod_cast hq
      omega
    · rename_i hc2
      have heq : v - (⌊v⌋ : ℚ) = 1/2 := le_antisymm (not_lt.mp hc2) (not_lt.mp hc1)
      have hq : (⌊v⌋ : ℚ) < -1 := by linarith
      have hz : ⌊v⌋ < -1 := by exact_mod_cast hq
      split <;> omega

/-- For a nonnegative integer, printing the absolute value prints the
integer. -/
lemma toString_natAbs_of_nonneg (n : ℤ) (h : 0 ≤ n) :
    toString n.natAbs = toString n := by
  obtain ⟨m, hm⟩ := Int.eq_ofNat_of_zero_le h
  rw [hm]
  rfl

/-- For a negative integer, a minus sign followed by the absolute value is
exactly its printed form. -/
lemma toString_neg_int (n : ℤ) (h : n < 0) :
    "-" ++ toString n.natAbs = toString n := by
  obtain ⟨m, hm⟩ := Int.eq_negSucc_of_lt_zero h
  rw [hm]
  rfl

/-- C4 (amended): the compact currency formatter returns `"—"` for missing
values and for `0`, `"$1.5M"` for `1 500 000`, `"$2K"` for `2 500`
(fixed-point rounding is to the nearest integer with ties to even, so
`2.5K` rounds down to `$2K`); every value strictly between `0` and `1000`
renders as whole-dollar `"$N"` with `N` the half-even rounding; Python's
sign-preserving formatting makes every value in `[-1/2, 0)` render as
`"$-0"`, and every value below `-1/2` renders as `"$N"` with `N` the
(negative) half-even rounding. -/
theorem format_currency_spec :
    format_currency none = "—" ∧
    format_currency (some 0) = "—" ∧
    format_currency (some 1500000) = "$1.5M" ∧
    format_currency (some 2500) = "$2K" ∧
    (∀ v : ℚ, 0 < v → v < 1000 →
      format_currency (some v) = "$" ++ toString (roundHalfEven v)) ∧
    (∀ v : ℚ, -(1/2) ≤ v → v < 0 → format_currency (some v) = "$-0") ∧
    (∀ v : ℚ, v < -(1/2) →
      format_currency (some v) = "$" ++ toString (roundHalfEven v)) := by
  refine ⟨rfl, by rfl, by rfl, by rfl, ?_, ?_, ?_⟩
  · intro v hv hlt
    simp only [format_currency]
    rw [if_neg (ne_of_gt hv), if_neg (by push_neg; linarith),
      if_neg (by push_neg; linarith)]
    simp only [fmtFixed0]
    rw [if_neg (not_lt.mpr hv.le), toString_natAbs_of_nonneg _ (roundHalfEven_nonneg v hv.le)]
    rfl
  · intro v h1 h2
    simp only [format_currency]
    rw [if_neg (ne_of_lt h2), if_neg (by push_neg; linarith),
      if_neg (by push_neg; linarith)]
    simp only [fmtFixed0]
    rw [roundHalfEven_neg_small v h1 h2, if_pos h2]
    rfl
  · intro v h
    have h2 : v < 0 := by linarith
    simp only [format_currency]
    rw [if_neg (ne_of_lt h2), if_neg (by push_neg; linarith),
      if_neg (by push_neg; linarith)]
    simp only [fmtFixed0]
    rw [if_pos h2, toString_neg_int _ (roundHalfEven_lt_zero v h)]

/-- C4 (witness): the three value-range branches of `format_currency_spec`
evaluated at `500`, `-3/10` (renders `"$-0"`, Python's signed zero) and
`-2`. -/
theorem format_currency_spec_witness :
    format_currency (some 500) = "$500" ∧
    format_currency (some (-(3/10))) = "$-0" ∧
    format_currency (some (-2)) = "$-2" := by
  refine ⟨?_, ?_, ?_⟩
  · have h := format_currency_spec.2.2.2.2.1 500 (by norm_num) (by norm_num)
    rw [h]
    rfl
  · exact format_currency_spec.2.2.2.2.2.1 (-(3/10)) (by norm_num) (by norm_num)
  · have h := format_currency_spec.2.2.2.2.2.2 (-2) (by norm_num)
    rw [h]
    rfl

/-! ## Claim C3: the coordinate gate of the Step C loop -/

/-- C3 (counterexample): a row whose longitude is unparseable but whose
latitude parses to the nonzero value `40.7` is nevertheless rejected —
the single `try` block covers both conversions, so one bad coordinate
suffices, contradicting "only if both … are unparseable". -/
theorem rowCoords_single_bad_coordinate :
    rowCoords { longitude := FloatField.value none
                latitude := FloatField.value (some 40.7) } = none ∧
    pyFloatOfGet (FloatField.value (some 40.7)) = some 40.7 ∧ (40.7 : ℚ) ≠ 0 := by
  refine ⟨rfl, rfl, by norm_num⟩

/-- C3 (amended): a fetched row is rejected at the coordinate gate exactly
when either coordinate fails to convert with `float`, or either converted
coordinate equals zero; in every other case the row proceeds to
classification (a parcel is emitted iff `find_bid` succeeds). -/
theorem rowCoords_none_iff :
    ∀ r : InRow,
      (rowCoords r = none ↔
        pyFloatOfGet r.longitude = none ∨ pyFloatOfGet r.latitude = none ∨
        pyFloatOfGet r.longitude = some 0 ∨ pyFloatOfGet r.latitude = some 0) ∧
      (∀ (bs : Boundaries) (lon lat : ℚ), rowCoords r = some (lon, lat) →
        (processRow bs r).isSome = (find_bid lon lat bs).isSome) := by
  intro r
  constructor
  · unfold rowCoords
    rcases h1 : pyFloatOfGet r.longitude with _ | lon
    · simp
    · rcases h2 : pyFloatOfGet r.latitude with _ | lat
      · simp
      · by_cases h : lon = 0 ∨ lat = 0
        · rcases h with h | h <;> simp [h]
        · push_neg at h
          simp [h.1, h.2]
  · intro bs lon lat h
    unfold processRow
    rw [h]
    rcases hfb : find_bid lon lat bs with _ | name <;> simp [hfb]

/-- C3 (witness): `rowCoords_none_iff` applied to a concrete row with
coordinates `(1/2, 1/2)` against a one-boundary mapping. -/
theorem rowCoords_none_iff_witness :
    (processRow [("W", [unitSquare])]
      { longitude := FloatField.value (some (1/2))
        latitude := FloatField.value (some (1/2)) }).isSome =
    (find_bid (1/2) (1/2) [("W", [unitSquare])]).isSome := by
  exact (rowCoords_none_iff _).2 [("W", [unitSquare])] (1/2) (1/2) (by rfl)

/-! ## Claim C8: pagination of `fetch_pluto` -/

/-- The accumulated rows of the pagination loop started at `offset` are
exactly `rows[offset:]`. -/
theorem fetch_pluto_acc [DecidableEq α] (rows : List α) (pageSize : Nat)
    (hp : 0 < pageSize) (offset : Nat) :
    (fetch_pluto_run rows pageSize offset).1 = rows.drop offset := by
  induction offset using fetch_pluto_run.induct rows pageSize with
  | case1 x batch h1 =>
    rw [fetch_pluto_run]
    rw [dif_pos h1]
    rw [List.take_eq_nil_iff] at h1
    rcases h1 with h1 | h1
    · omega
    · exact h1.symm
  | case2 x batch h1 h2 =>
    rw [fetch_pluto_run]
    rw [dif_neg h1, if_pos h2]
    have h2' : (List.take pageSize (List.drop x rows)).length < pageSize := h2
    rw [List.length_take] at h2'
    show List.take pageSize (List.drop x rows) = List.drop x rows
    refine List.take_of_length_le ?_
    by_cases hc : pageSize ≤ (List.drop x rows).length
    · rw [inf_eq_left.mpr hc] at h2'
      omega
    · omega
  | case3 x batch h1 h2 ih =>
    rw [fetch_pluto_run]
    rw [dif_neg h1, if_neg h2]
    show List.take pageSize (List.drop x rows) ++ (fetch_pluto_run rows pageSize (x + pageSize)).1 = List.drop x rows
    rw [ih]
    rw [← List.drop_drop]
    exact List.take_append_drop pageSize (rows.drop x)

/-- Splitting off the first element of an arithmetic offset progression. -/
theorem cons_map_range_mul (a p m : Nat) :
    a :: (List.range m).map (fun i => a + p + p * i) =
      (List.range (m + 1)).map (fun i => a + p * i) := by
  rw [List.range_succ_eq_map, List.map_cons, List.map_map]
  refine List.cons_eq_cons.mpr ⟨by simp, ?_⟩
  refine List.map_congr_left ?_
  intro i _
  simp only [Function.comp_apply, Nat.mul_succ]
  omega

/-- The offsets requested by the pagination loop started at `offset`:
one request per page, `⌊(remaining)/pageSize⌋ + 1` requests in total. -/
theorem fetch_pluto_offsets [DecidableEq α] (rows : List α) (pageSize : Nat)
    (hp : 0 < pageSize) (offset : Nat) :
    (fetch_pluto_run rows pageSize offset).2 =
      (List.range ((rows.length - offset) / pageSize + 1)).map
        (fun i => offset + pageSize * i) := by
  induction offset using fetch_pluto_run.induct rows pageSize with
  | case1 x batch h1 =>
    rw [fetch_pluto_run, dif_pos h1]
    rw [List.take_eq_nil_iff] at h1
    have hx : rows.length - x = 0 := by
      rcases h1 with h1 | h1
      · omega
      · have := congrArg List.length h1
        simp only [List.length_drop, List.length_nil] at this
        omega
    rw [hx]
    simp [List.range_succ]
  | case2 x batch h1 h2 =>
    rw [fetch_pluto_run, dif_neg h1, if_pos h2]
    have h2' : (List.take pageSize (List.drop x rows)).length < pageSize := h2
    rw [List.length_take, List.length_drop] at h2'
    have hlt : rows.length - x < pageSize := by
      by_cases hc : pageSize ≤ rows.length - x
      · rw [inf_eq_left.mpr hc] at h2'
        omega
      · omega
    rw [Nat.div_eq_of_lt hlt]
    simp [List.range_succ]
  | case3 x batch h1 h2 ih =>
    rw [fetch_pluto_run, dif_neg h1, if_neg h2]
    show x :: (fetch_pluto_run rows pageSize (x + pageSize)).2 = _
    rw [ih]
    have h2' : ¬ ((List.take pageSize (List.drop x rows)).length < pageSize) := h2
    rw [List.length_take, List.length_drop] at h2'
    have hge : pageSize ≤ rows.length - x := by
      by_cases hc : pageSize ≤ rows.length - x
      · exact hc
      · exfalso
        rw [inf_eq_right.mpr (by omega)] at h2'
        omega
    have hdiv : (rows.length - x) / pageSize = (rows.length - (x + pageSize)) / pageSize + 1 := by
      rw [Nat.div_eq_sub_div hp hge]
      have heq : rows.length - x - pageSize = rows.length - (x + pageSize) := by omega
      rw [heq]
    rw [hdiv]
    exact cons_map_range_mul x pageSize ((rows.length - (x + pageSize)) / pageSize + 1)

/-- C8: the pagination loop terminates (it is a total function), stopping
as soon as a page is empty or shorter than the page size; starting at
offset `0` it accumulates exactly the backend's rows, in order, with no
duplication or loss; it requests offsets `0, pageSize, 2·pageSize, …`, one
per page; and against a 120001-row source with page size 50000 it issues
exactly the 3 requests at offsets 0, 50000 and 100000. -/
theorem fetch_pluto_run_spec [DecidableEq α] (rows : List α) (pageSize : Nat)
    (hp : 0 < pageSize) :
    (fetch_pluto_run rows pageSize 0).1 = rows ∧
    (fetch_pluto_run rows pageSize 0).2 =
      (List.range (rows.length / pageSize + 1)).map (fun i => pageSize * i) ∧
    (rows.length = 120001 → pageSize = 50000 →
      (fetch_pluto_run rows pageSize 0).2 = [0, 50000, 100000]) := by
  refine ⟨by simpa using fetch_pluto_acc rows pageSize hp 0, ?_, ?_⟩
  · have h := fetch_pluto_offsets rows pageSize hp 0
    simpa using h
  · intro h1 h2
    have h := fetch_pluto_offsets rows pageSize hp 0
    rw [h, h1, h2]
    rfl

/-- C8 (witness): `fetch_pluto_run_spec` at a 120001-row backend with page
size 50000: all rows accumulated, offsets 0, 50000, 100000. -/
theorem fetch_pluto_run_spec_witness :
    (fetch_pluto_run (List.range 120001) 50000 0).1 = List.range 120001 ∧
    (fetch_pluto_run (List.range 120001) 50000 0).2 = [0, 50000, 100000] := by
  have h := fetch_pluto_run_spec (List.range 120001) 50000 (by norm_num)
  exact ⟨h.1, h.2.2 (by simp) rfl⟩

/-! ## Claim C1: first-match classification -/

/-- Inversion of one Step C iteration: an emitted parcel records exactly
the coordinates that passed the gate and the name `find_bid` returned. -/
theorem processRow_eq_some {bs : Boundaries} {r : InRow} {p : Parcel}
    (h : processRow bs r = some p) :
    rowCoords r = some (p.lon, p.lat) ∧ find_bid p.lon p.lat bs = some p.bid_name := by
  unfold processRow at h
  split at h
  · exact absurd h (by simp)
  · rename_i lon lat hrc
    split at h
    · exact absurd h (by simp)
    · rename_i name hfb
      cases h
      exact ⟨hrc, hfb⟩

/-- The `find?` characterization of `find_bid`, by itself. -/
theorem find_bid_eq_find? (lon lat : ℚ) :
    ∀ bs : Boundaries,
      find_bid lon lat bs =
        Option.map Prod.fst
          (bs.find? (fun nr => nr.2.any (fun ring => point_in_ring lon lat ring)))
  | [] => rfl
  | (name, rings) :: tl => by
    rw [find_bid]
    by_cases h : rings.any (fun ring => point_in_ring lon lat ring)
    · rw [if_pos h]
      simp only [List.find?, h]
      rfl
    · have h' : (rings.any fun ring => point_in_ring lon lat ring) = false := by
        simpa using h
      rw [if_neg h]
      simp only [List.find?, h']
      exact find_bid_eq_find? lon lat tl

/-- C1: `find_bid` returns the name of the first boundary, in iteration
order, one of whose exterior rings contains the point, and `none` when no
boundary contains it; with boundaries `A` before `B` both containing the
point the result is `A`; and every parcel emitted by the Step C loop
records exactly the name `find_bid` returns for its coordinates (so each
parcel carries exactly one non-null BID name). -/
theorem find_bid_first_match (lon lat : ℚ) (bs : Boundaries) :
    find_bid lon lat bs =
      Option.map Prod.fst
        (bs.find? (fun nr => nr.2.any (fun ring => point_in_ring lon lat ring))) ∧
    ((∀ nr ∈ bs, ∀ ring ∈ nr.2, point_in_ring lon lat ring = false) →
      find_bid lon lat bs = none) ∧
    (∀ (A : String) (rsA : List PolyRing) (B : String) (rsB : List PolyRing),
      (∃ ring ∈ rsA, point_in_ring lon lat ring = true) →
      (∃ ring ∈ rsB, point_in_ring lon lat ring = true) →
      find_bid lon lat [(A, rsA), (B, rsB)] = some A) ∧
    (∀ (rows : List InRow) (boundaries : Boundaries) (p : Parcel),
      p ∈ buildParcels rows boundaries →
      find_bid p.lon p.lat boundaries = some p.bid_name) := by
  refine ⟨find_bid_eq_find? lon lat bs, ?_, ?_, ?_⟩
  · intro hall
    rw [find_bid_eq_find? lon lat bs]
    rw [List.find?_eq_none.mpr ?_]
    · rfl
    · intro nr hmem
      rw [List.any_eq_true]
      rintro ⟨ring, hring, hpir⟩
      rw [hall nr hmem ring hring] at hpir
      exact absurd hpir (by simp)
  · intro A rsA B rsB h1 h2
    rw [find_bid]
    rw [if_pos ?_]
    · obtain ⟨ring, hm, hf⟩ := h1
      exact List.any_eq_true.mpr ⟨ring, hm, hf⟩
  · intro rows boundaries p hp
    obtain ⟨r, _, hr⟩ := List.mem_filterMap.mp hp
    exact (processRow_eq_some hr).2

/-- C1 (witness): two overlapping boundaries, `A` first, point `(½, ½)`
inside both: the assignment is `A`. -/
theorem find_bid_first_match_witness :
    find_bid (1/2) (1/2) [("A", [unitSquare]), ("B", [unitSquare])] = some "A" := by
  exact (find_bid_first_match (1/2) (1/2) []).2.2.1 "A" [unitSquare] "B" [unitSquare]
    ⟨unitSquare, by simp, by decide⟩ ⟨unitSquare, by simp, by decide⟩

/-! ## Claim C10: parcels reference exactly one boundary feature -/

/-- A name returned by `find_bid` is a key of the boundary mapping. -/
theorem find_bid_mem_keys {lon lat : ℚ} :
    ∀ {bs : Boundaries} {name : String},
      find_bid lon lat bs = some name → name ∈ bs.map Prod.fst := by
  intro bs
  induction bs with
  | nil =>
    intro name h
    exact absurd h (by simp [find_bid])
  | cons hd tl ih =>
    intro name h
    rcases hd with ⟨n, rings⟩
    rw [find_bid] at h
    by_cases hc : rings.any (fun ring => point_in_ring lon lat ring)
    · rw [if_pos hc] at h
      cases h
      exact List.mem_cons_self _ _
    · rw [if_neg hc] at h
      exact List.mem_cons_of_mem _ (ih h)

/-- C10: the exported feature collection has exactly one feature per
boundary key (same names, in order, one each), and every parcel emitted by
the Step C loop carries a `bid_name` that is a key of the mapping and
matches the `name` of exactly one boundary feature. -/
theorem geojson_one_feature_per_key (bs : Boundaries)
    (hnd : (bs.map Prod.fst).Nodup) :
    (build_geojson_boundaries bs).map Feature.name = bs.map Prod.fst ∧
    (build_geojson_boundaries bs).length = bs.length ∧
    (∀ (rows : List InRow) (p : Parcel), p ∈ buildParcels rows bs →
      p.bid_name ∈ bs.map Prod.fst ∧
      ((build_geojson_boundaries bs).filter
        (fun f => f.name == p.bid_name)).length = 1) := by
  refine ⟨?_, by simp [build_geojson_boundaries], ?_⟩
  · unfold build_geojson_boundaries
    rw [List.map_map]
    rfl
  · intro rows p hp
    obtain ⟨r, _, hr⟩ := List.mem_filterMap.mp hp
    have hfb := (processRow_eq_some hr).2
    have hmem := find_bid_mem_keys hfb
    refine ⟨hmem, ?_⟩
    unfold build_geojson_boundaries
    rw [List.filter_map, List.length_map]
    have hstep :
        (bs.filter ((fun f => f.name == p.bid_name) ∘ featureOf)).length =
          ((bs.map Prod.fst).filter (fun k => k == p.bid_name)).length := by
      rw [List.filter_map, List.length_map]
      rfl
    rw [hstep, ← List.countP_eq_length_filter]
    exact List.count_eq_one_of_mem hnd hmem

/-- The concrete row used by witnesses: coordinates `(1/2, 1/2)`. -/
def witRow : InRow :=
  { longitude := FloatField.value (some (1/2))
    latitude := FloatField.value (some (1/2)) }

/-- The parcel the Step C loop emits for `witRow` against the boundary
mapping `[("A", [unitSquare])]`. -/
def witParcel : Parcel :=
  { lat := 1/2
    lon := 1/2
    assesstot := 0
    assessland := 0
    address := ""
    bbl := ""
    bid_name := "A"
    bldgclass := ""
    landuse := ""
    yearbuilt := 0
    numfloors := 0
    lotarea := 0
    color := [128, 128, 128] }

/-- C10 (witness): `geojson_one_feature_per_key` at the one-boundary
mapping and the parcel emitted for `witRow`. -/
theorem geojson_one_feature_per_key_witness :
    witParcel.bid_name ∈ ([("A", [unitSquare])] : Boundaries).map Prod.fst ∧
    ((build_geojson_boundaries [("A", [unitSquare])]).filter
      (fun f => f.name == witParcel.bid_name)).length = 1 := by
  exact (geojson_one_feature_per_key [("A", [unitSquare])] (by decide)).2.2
    [witRow] witParcel (by decide)

/-! ## Claim C7: `bounding_box` -/

/-- Every coordinate of every ring of every boundary, in fold order. -/
def allCoords (bs : Boundaries) : List (ℚ × ℚ) :=
  (bs.map (fun nr => nr.2.flatten)).flatten

/-- The inner two loops of `bounding_box` over one boundary flatten. -/
theorem foldl_rings_flatten : ∀ (rs : List PolyRing) (st0 : BBSt),
    rs.foldl (fun st ring => ring.foldl bbStep st) st0 = rs.flatten.foldl bbStep st0
  | [], _ => rfl
  | r :: rs, st0 => by
    rw [List.foldl_cons, foldl_rings_flatten rs _, List.flatten_cons, List.foldl_append]

/-- The whole triple loop of `bounding_box` is a fold over `allCoords`. -/
theorem bb_fold_flatten : ∀ (bs : Boundaries) (st0 : BBSt),
    bs.foldl (fun st nr => nr.2.foldl (fun st ring => ring.foldl bbStep st) st) st0 =
      (allCoords bs).foldl bbStep st0
  | [], _ => rfl
  | hd :: tl, st0 => by
    rw [List.foldl_cons, bb_fold_flatten tl _]
    unfold allCoords
    rw [List.map_cons, List.flatten_cons, List.foldl_append, foldl_rings_flatten]

/-- The four accumulators evolve independently, as scalar folds. -/
theorem bb_foldl_proj : ∀ (cs : List (ℚ × ℚ)) (st : BBSt),
    cs.foldl bbStep st =
      ⟨(cs.map Prod.fst).foldl PyNum.minQ st.min_lon,
        (cs.map Prod.fst).foldl PyNum.maxQ st.max_lon,
        (cs.map Prod.snd).foldl PyNum.minQ st.min_lat,
        (cs.map Prod.snd).foldl PyNum.maxQ st.max_lat⟩
  | [], _ => rfl
  | c :: cs, st => by
    rw [List.foldl_cons, bb_foldl_proj cs _]
    rfl

/-- A `minQ` fold from a finite value computes a minimum. -/
theorem foldl_minQ_fin : ∀ (l : List ℚ) (a : ℚ),
    ∃ m, l.foldl PyNum.minQ (.fin a) = .fin m ∧ (m = a ∨ m ∈ l) ∧ m ≤ a ∧ ∀ x ∈ l, m ≤ x
  | [], a => ⟨a, rfl, .inl rfl, le_refl a, by simp⟩
  | x :: xs, a => by
    rw [List.foldl_cons]
    have hstep : PyNum.minQ (.fin a) x = .fin (min a x) := rfl
    rw [hstep]
    obtain ⟨m, h1, h2, h3, h4⟩ := foldl_minQ_fin xs (min a x)
    refine ⟨m, h1, ?_, le_trans h3 (min_le_left _ _), ?_⟩
    · rcases h2 with h | h
      · rcases le_total a x with hle | hle
        · exact .inl (h.trans (min_eq_left hle))
        · refine .inr ?_
          rw [h, min_eq_right hle]
          exact List.mem_cons_self _ _
      · exact .inr (List.mem_cons_of_mem _ h)
    · intro y hy
      rcases List.mem_cons.mp hy with h | h
      · rw [h]
        exact le_trans h3 (min_le_right _ _)
      · exact h4 y h

/-- A `maxQ` fold from a finite value computes a maximum. -/
theorem foldl_maxQ_fin : ∀ (l : List ℚ) (a : ℚ),
    ∃ m, l.foldl PyNum.maxQ (.fin a) = .fin m ∧ (m = a ∨ m ∈ l) ∧ a ≤ m ∧ ∀ x ∈ l, x ≤ m
  | [], a => ⟨a, rfl, .inl rfl, le_refl a, by simp⟩
  | x :: xs, a => by
    rw [List.foldl_cons]
    have hstep : PyNum.maxQ (.fin a) x = .fin (max a x) := rfl
    rw [hstep]
    obtain ⟨m, h1, h2, h3, h4⟩ := foldl_maxQ_fin xs (max a x)
    refine ⟨m, h1, ?_, le_trans (le_max_left _ _) h3, ?_⟩
    · rcases h2 with h | h
      · rcases le_total a x with hle | hle
        · refine .inr ?_
          rw [h, max_eq_right hle]
          exact List.mem_cons_self _ _
        · exact .inl (h.trans (max_eq_left hle))
      · exact .inr (List.mem_cons_of_mem _ h)
    · intro y hy
      rcases List.mem_cons.mp hy with h | h
      · rw [h]
        exact le_trans (le_max_right _ _) h3
      · exact h4 y h

/-- A `minQ` fold from `float("inf")` over a nonempty list computes the
minimum of the list. -/
theorem foldl_minQ_posinf (l : List ℚ) (h : l ≠ []) :
    ∃ m, l.foldl PyNum.minQ .posinf = .fin m ∧ m ∈ l ∧ ∀ x ∈ l, m ≤ x := by
  rcases l with _ | ⟨x, xs⟩
  · exact absurd rfl h
  · rw [List.foldl_cons]
    have hstep : PyNum.minQ .posinf x = .fin x := rfl
    rw [hstep]
    obtain ⟨m, h1, h2, h3, h4⟩ := foldl_minQ_fin xs x
    refine ⟨m, h1, ?_, ?_⟩
    · rcases h2 with h | h
      · rw [h]
        exact List.mem_cons_self _ _
      · exact List.mem_cons_of_mem _ h
    · intro y hy
      rcases List.mem_cons.mp hy with h | h
      · rw [h]
        exact h3
      · exact h4 y h

/-- A `maxQ` fold from `float("-inf")` over a nonempty list computes the
maximum of the list. -/
theorem foldl_maxQ_neginf (l : List ℚ) (h : l ≠ []) :
    ∃ m, l.foldl PyNum.maxQ .neginf = .fin m ∧ m ∈ l ∧ ∀ x ∈ l, x ≤ m := by
  rcases l with _ | ⟨x, xs⟩
  · exact absurd rfl h
  · rw [List.foldl_cons]
    have hstep : PyNum.maxQ .neginf x = .fin x := rfl
    rw [hstep]
    obtain ⟨m, h1, h2, h3, h4⟩ := foldl_maxQ_fin xs x
    refine ⟨m, h1, ?_, ?_⟩
    · rcases h2 with h | h
      · rw [h]
        exact List.mem_cons_self _ _
      · exact List.mem_cons_of_mem _ h
    · intro y hy
      rcases List.mem_cons.mp hy with h | h
      · rw [h]
        exact h3
      · exact h4 y h

/-- Full characterization of `bounding_box` on a mapping with at least one
coordinate: finite extrema of all coordinates, buffered by `0.002`. -/
theorem bounding_box_spec_aux (bs : Boundaries) (h : allCoords bs ≠ []) :
    ∃ mlon Mlon mlat Mlat : ℚ,
      mlon ∈ (allCoords bs).map Prod.fst ∧ (∀ x ∈ (allCoords bs).map Prod.fst, mlon ≤ x) ∧
      Mlon ∈ (allCoords bs).map Prod.fst ∧ (∀ x ∈ (allCoords bs).map Prod.fst, x ≤ Mlon) ∧
      mlat ∈ (allCoords bs).map Prod.snd ∧ (∀ y ∈ (allCoords bs).map Prod.snd, mlat ≤ y) ∧
      Mlat ∈ (allCoords bs).map Prod.snd ∧ (∀ y ∈ (allCoords bs).map Prod.snd, y ≤ Mlat) ∧
      bounding_box bs =
        (.fin (mlon - 0.002), .fin (mlat - 0.002), .fin (Mlon + 0.002), .fin (Mlat + 0.002)) := by
  have hlon : (allCoords bs).map Prod.fst ≠ [] := by simpa using h
  have hlat : (allCoords bs).map Prod.snd ≠ [] := by simpa using h
  obtain ⟨mlon, e1, m1, b1⟩ := foldl_minQ_posinf _ hlon
  obtain ⟨Mlon, e2, m2, b2⟩ := foldl_maxQ_neginf _ hlon
  obtain ⟨mlat, e3, m3, b3⟩ := foldl_minQ_posinf _ hlat
  obtain ⟨Mlat, e4, m4, b4⟩ := foldl_maxQ_neginf _ hlat
  refine ⟨mlon, Mlon, mlat, Mlat, m1, b1, m2, b2, m3, b3, m4, b4, ?_⟩
  simp only [bounding_box]
  rw [bb_fold_flatten, bb_foldl_proj]
  show ((PyNum.subQ _ _, PyNum.subQ _ _, PyNum.addQ _ _, PyNum.addQ _ _) :
    PyNum × PyNum × PyNum × PyNum) = _
  rw [show bbInit.min_lon = PyNum.posinf from rfl, show bbInit.max_lon = PyNum.neginf from rfl,
    show bbInit.min_lat = PyNum.posinf from rfl, show bbInit.max_lat = PyNum.neginf from rfl]
  rw [e1, e2, e3, e4]
  rfl

/-- C7 (counterexample): `{"A": []}` is a non-empty boundary mapping, yet
`bounding_box` on it returns the four infinities. -/
theorem bounding_box_infinite_on_empty_rings :
    bounding_box [("A", [])] = (.posinf, .posinf, .neginf, .neginf) ∧
    ([("A", [])] : Boundaries) ≠ [] := by
  exact ⟨by decide, by decide⟩

/-- C7 (amended): for every boundary mapping containing at least one
coordinate, `bounding_box` returns the four finite values
`(min_lon − 0.002, min_lat − 0.002, max_lon + 0.002, max_lat + 0.002)`,
the extrema ranging over every coordinate of every ring; in particular on
a boundary spanning lons `[-74, -73.9]` and lats `[40.6, 40.7]` it returns
`(-74.002, 40.598, -73.898, 40.702)`. -/
theorem bounding_box_spec (bs : Boundaries) (h : allCoords bs ≠ []) :
    (∃ mlon Mlon mlat Mlat : ℚ,
      mlon ∈ (allCoords bs).map Prod.fst ∧ (∀ x ∈ (allCoords bs).map Prod.fst, mlon ≤ x) ∧
      Mlon ∈ (allCoords bs).map Prod.fst ∧ (∀ x ∈ (allCoords bs).map Prod.fst, x ≤ Mlon) ∧
      mlat ∈ (allCoords bs).map Prod.snd ∧ (∀ y ∈ (allCoords bs).map Prod.snd, mlat ≤ y) ∧
      Mlat ∈ (allCoords bs).map Prod.snd ∧ (∀ y ∈ (allCoords bs).map Prod.snd, y ≤ Mlat) ∧
      bounding_box bs =
        (.fin (mlon - 0.002), .fin (mlat - 0.002), .fin (Mlon + 0.002), .fin (Mlat + 0.002))) ∧
    bounding_box [("A", [[(-74, 40.6), (-73.9, 40.7)]])] =
      (.fin (-74.002), .fin 40.598, .fin (-73.898), .fin 40.702) :=
  ⟨bounding_box_spec_aux bs h, by decide⟩

/-- C7 (witness): `bounding_box_spec` at the concrete two-point boundary. -/
theorem bounding_box_spec_witness :
    (∃ mlon Mlon mlat Mlat : ℚ,
      mlon ∈ (allCoords [("A", [[(-74, 40.6), (-73.9, 40.7)]])]).map Prod.fst ∧
      (∀ x ∈ (allCoords [("A", [[(-74, 40.6), (-73.9, 40.7)]])]).map Prod.fst, mlon ≤ x) ∧
      Mlon ∈ (allCoords [("A", [[(-74, 40.6), (-73.9, 40.7)]])]).map Prod.fst ∧
      (∀ x ∈ (allCoords [("A", [[(-74, 40.6), (-73.9, 40.7)]])]).map Prod.fst, x ≤ Mlon) ∧
      mlat ∈ (allCoords [("A", [[(-74, 40.6), (-73.9, 40.7)]])]).map Prod.snd ∧
      (∀ y ∈ (allCoords [("A", [[(-74, 40.6), (-73.9, 40.7)]])]).map Prod.snd, mlat ≤ y) ∧
      Mlat ∈ (allCoords [("A", [[(-74, 40.6), (-73.9, 40.7)]])]).map Prod.snd ∧
      (∀ y ∈ (allCoords [("A", [[(-74, 40.6), (-73.9, 40.7)]])]).map Prod.snd, y ≤ Mlat) ∧
      bounding_box [("A", [[(-74, 40.6), (-73.9, 40.7)]])] =
        (.fin (mlon - 0.002), .fin (mlat - 0.002), .fin (Mlon + 0.002), .fin (Mlat + 0.002))) ∧
    bounding_box [("A", [[(-74, 40.6), (-73.9, 40.7)]])] =
      (.fin (-74.002), .fin 40.598, .fin (-73.898), .fin 40.702) :=
  bounding_box_spec [("A", [[(-74, 40.6), (-73.9, 40.7)]])] (by decide)

/-! ## Claim C9: well-formedness of the loaded boundary mapping -/

/-- A boundary entry with at least one ring, all rings nonempty. -/
def GoodEntry (nr : String × List PolyRing) : Prop :=
  nr.2 ≠ [] ∧ ∀ r ∈ nr.2, r ≠ []

/-- A block accepted by `processBlock` never contributes an empty ring
(the `if coords:` guard). -/
theorem processBlock_ring_nonempty {b : List Char} {r : PolyRing}
    (h : processBlock b = .ok (some r)) : r ≠ [] := by
  unfold processBlock at h
  dsimp only at h
  split at h
  · exact absurd h (by simp)
  · split at h
    · exact absurd h (by simp)
    · rename_i coords hcc
      by_cases hc : coords = []
      · rw [if_pos hc] at h
        exact absurd h (by simp)
      · rw [if_neg hc] at h
        cases h
        exact hc

/-- No ring returned by the polygon-block loop is empty. -/
theorem processBlocks_rings_nonempty : ∀ {blocks : List (List Char)} {rs : List PolyRing},
    processBlocks blocks = .ok rs → ∀ r ∈ rs, r ≠ [] := by
  intro blocks
  induction blocks with
  | nil =>
    intro rs h r hr
    cases h
    simp at hr
  | cons b bl ih =>
    intro rs h r hr
    unfold processBlocks at h
    split at h
    · exact absurd h (by simp)
    · exact ih h r hr
    · rename_i rb hb
      split at h
      · exact absurd h (by simp)
      · rename_i rest hrest
        cases h
        rcases List.mem_cons.mp hr with hh | hh
        · rw [hh]
          exact processBlock_ring_nonempty hb
        · exact ih hrest r hh

/-- No ring returned by `parse_wkt_multipolygon` is empty. -/
theorem parse_rings_nonempty {w : String} {rs : List PolyRing}
    (h : parse_wkt_multipolygon w = .ok rs) : ∀ r ∈ rs, r ≠ [] :=
  processBlocks_rings_nonempty h

/-- Membership after a dict assignment. -/
theorem mem_upsert {k : String} {v : α} : ∀ {l : List (String × α)} {e : String × α},
    e ∈ upsert k v l → e = (k, v) ∨ e ∈ l := by
  intro l
  induction l with
  | nil =>
    intro e he
    simp [upsert] at he
    exact .inl he
  | cons hd tl ih =>
    intro e he
    rcases hd with ⟨k', v'⟩
    rw [upsert] at he
    by_cases hk : k' = k
    · rw [if_pos hk] at he
      rcases List.mem_cons.mp he with hh | hh
      · exact .inl hh
      · exact .inr (List.mem_cons_of_mem _ hh)
    · rw [if_neg hk] at he
      rcases List.mem_cons.mp he with hh | hh
      · exact .inr (hh ▸ List.mem_cons_self _ _)
      · rcases ih hh with h2 | h2
        · exact .inl h2
        · exact .inr (List.mem_cons_of_mem _ h2)

/-- The assigned entry is present after a dict assignment. -/
theorem upsert_mem_self (k : String) (v : α) :
    ∀ (l : List (String × α)), (k, v) ∈ upsert k v l
  | [] => by
    simp [upsert]
  | (k', v') :: tl => by
    rw [upsert]
    by_cases hk : k' = k
    · rw [if_pos hk]
      exact List.mem_cons_self _ _
    · rw [if_neg hk]
      exact List.mem_cons_of_mem _ (upsert_mem_self k v tl)

/-- Invariant of the `load_bid_boundaries` row loop: only good entries are
ever stored. -/
theorem loadRows_good (names : List String) :
    ∀ (rows : List (String × String)) (acc bs : List (String × List PolyRing)),
      (∀ e ∈ acc, GoodEntry e) → loadRows names rows acc = .ok bs →
      ∀ e ∈ bs, GoodEntry e := by
  intro rows
  induction rows with
  | nil =>
    intro acc bs hacc h
    cases h
    exact hacc
  | cons rw0 tl ih =>
    intro acc bs hacc h
    rcases rw0 with ⟨nf, gf⟩
    rw [loadRows] at h
    by_cases hn : String.mk (pyStrip nf.data) ∈ names
    · rw [if_pos hn] at h
      split at h
      · exact absurd h (by simp)
      · rename_i rings hparse
        refine ih _ bs ?_ h
        by_cases hr : rings = []
        · rw [if_pos hr]
          exact hacc
        · rw [if_neg hr]
          intro e he
          rcases mem_upsert he with heq | hmem
          · rw [heq]
            exact ⟨hr, parse_rings_nonempty hparse⟩
          · exact hacc e hmem
    · rw [if_neg hn] at h
      exact ih acc bs hacc h

/-- A coordinate of a stored ring is a coordinate of the mapping. -/
theorem mem_allCoords {bs : Boundaries} {nr : String × List PolyRing}
    (hmem : nr ∈ bs) (ring : PolyRing) (hr : ring ∈ nr.2) {c : ℚ × ℚ}
    (hc : c ∈ ring) : c ∈ allCoords bs := by
  unfold allCoords
  rw [List.mem_flatten]
  exact ⟨nr.2.flatten, List.mem_map_of_mem _ hmem, List.mem_flatten.mpr ⟨ring, hr, hc⟩⟩

/-- C9: on every successful run of Step A (CSV load plus Gowanus
injection), every stored boundary has at least one ring, every stored ring
is nonempty, and `bounding_box` of the resulting mapping is four finite
values. -/
theorem assembled_boundaries_wf (rows : List (String × String)) (bs : Boundaries)
    (h : assembleBoundaries rows = .ok bs) :
    (∀ nr ∈ bs, nr.2 ≠ [] ∧ ∀ ring ∈ nr.2, ring ≠ []) ∧
    (∃ a b c d : ℚ, bounding_box bs = (.fin a, .fin b, .fin c, .fin d)) := by
  unfold assembleBoundaries at h
  split at h
  · exact absurd h (by simp)
  · rename_i bs0 hload
    cases h
    constructor
    · intro nr hnr
      rcases mem_upsert hnr with heq | hmem
      · rw [heq]
        refine ⟨by simp, ?_⟩
        intro ring hring
        rw [List.mem_singleton] at hring
        rw [hring]
        unfold GOWANUS_BOUNDARY
        simp
      · exact loadRows_good BROOKLYN_BIDS rows [] bs0 (by simp) hload nr hmem
    · have hmemG : ("Gowanus BID (Proposed)", [GOWANUS_BOUNDARY]) ∈
          upsert "Gowanus BID (Proposed)" [GOWANUS_BOUNDARY] bs0 :=
        upsert_mem_self _ _ _
      have hring : [GOWANUS_BOUNDARY].head? = some GOWANUS_BOUNDARY := rfl
      have hcoord : ((-73.98871236113611 : ℚ), (40.6852235692749 : ℚ)) ∈
          allCoords (upsert "Gowanus BID (Proposed)" [GOWANUS_BOUNDARY] bs0) := by
        refine mem_allCoords hmemG GOWANUS_BOUNDARY ?_ ?_
        · simp
        · unfold GOWANUS_BOUNDARY
          exact List.mem_cons_self _ _
      have hne : allCoords (upsert "Gowanus BID (Proposed)" [GOWANUS_BOUNDARY] bs0) ≠ [] := by
        intro h0
        rw [h0] at hcoord
        simp at hcoord
      obtain ⟨mlon, Mlon, mlat, Mlat, _, _, _, _, _, _, _, _, hbb⟩ :=
        bounding_box_spec_aux _ hne
      exact ⟨_, _, _, _, hbb⟩

/-- C9 (witness): `assembled_boundaries_wf` on the empty CSV, where Step A
yields exactly the injected Gowanus boundary. -/
theorem assembled_boundaries_wf_witness :
    (∀ nr ∈ ([("Gowanus BID (Proposed)", [GOWANUS_BOUNDARY])] : Boundaries),
      nr.2 ≠ [] ∧ ∀ ring ∈ nr.2, ring ≠ []) ∧
    (∃ a b c d : ℚ, bounding_box [("Gowanus BID (Proposed)", [GOWANUS_BOUNDARY])] =
      (.fin a, .fin b, .fin c, .fin d)) :=
  assembled_boundaries_wf [] _ (by rfl)

/-! ## Claim C6: error behavior of the WKT parser -/

/-- C6 (counterexample): a ring whose coordinate tokens are not numeric
makes `parse_wkt_multipolygon` raise (`float("a")` is unguarded), so the
parser does not degrade gracefully on every malformed input. -/
theorem parse_wkt_raises_on_bad_tokens :
    parse_wkt_multipolygon "MULTIPOLYGON(((a b,c d)))" = .error () := by
  rfl

/-- C6 (amended): a coordinate pair with fewer than two whitespace tokens
is skipped silently (never an error), and a ring whose pairs are all
skipped contributes nothing, so such malformed ring text degrades to fewer
rings — but a pair with two or more tokens whose token is not numeric
raises instead. -/
theorem parse_wkt_skips_short_pairs :
    (∀ pair : List Char, (splitWs (pyStrip pair)).length < 2 → parsePair pair = .ok none) ∧
    parse_wkt_multipolygon "MULTIPOLYGON(((x)),((1 2,3 4)))" = .ok [[(1, 2), (3, 4)]] := by
  constructor
  · intro pair h
    unfold parsePair
    rcases hs : splitWs (pyStrip pair) with _ | ⟨a, rest⟩
    · rfl
    · rcases rest with _ | ⟨b, t⟩
      · rfl
      · rw [hs] at h
        simp only [List.length_cons] at h
        omega
  · rfl

/-- C6 (witness): `parse_wkt_skips_short_pairs` at the one-token pair
`"x"`. -/
theorem parse_wkt_skips_short_pairs_witness :
    parsePair "x".data = .ok none := by
  exact parse_wkt_skips_short_pairs.1 "x".data (by decide)

/-! ## Claim C5: the WKT parser on well-formed serialized multipolygons

The quantification "for every valid WKT MULTIPOLYGON string" is realized
by a serializer: `renderMP` produces the canonical WKT text of an
arbitrary multipolygon whose coordinates are arbitrary signed decimal
numerals (`DecNum`), and the theorem computes `parse_wkt_multipolygon` on
that text. -/

/-- A character that cannot interfere with any of the parser's scanners:
not a paren, not a comma, not whitespace. -/
def plainChar (c : Char) : Bool :=
  !(c = '(' || c = ')' || c = ',' || isPySpace c)

/-- A signed decimal numeral: sign, integer digits, fraction digits. -/
structure DecNum where
  neg : Bool
  ip : List Nat
  fp : List Nat
deriving Repr, DecidableEq

/-- Well-formed numeral: at least one integer digit, all digits < 10. -/
def DecNum.valid (d : DecNum) : Prop :=
  d.ip ≠ [] ∧ (∀ k ∈ d.ip, k < 10) ∧ (∀ k ∈ d.fp, k < 10)

/-- The character of a decimal digit. -/
def digitChar : Nat → Char
  | 0 => '0'
  | 1 => '1'
  | 2 => '2'
  | 3 => '3'
  | 4 => '4'
  | 5 => '5'
  | 6 => '6'
  | 7 => '7'
  | 8 => '8'
  | 9 => '9'
  | _ => '?'

/-- Text of a numeral: `[-]digits[.digits]`. -/
def DecNum.render (d : DecNum) : List Char :=
  (if d.neg then ['-'] else []) ++ d.ip.map digitChar ++
    (if d.fp = [] then [] else '.' :: d.fp.map digitChar)

/-- Value of a digit string. -/
def digitsVal (ds : List Nat) : Nat :=
  ds.foldl (fun a k => 10 * a + k) 0

/-- Value of a numeral. -/
def DecNum.val (d : DecNum) : ℚ :=
  (if d.neg then -1 else 1) * ((digitsVal (d.ip ++ d.fp) : ℚ) / ((10 : ℚ) ^ d.fp.length))

/-- `sep`-separated concatenation. -/
def joinSep (sep : List Char) : List (List Char) → List Char
  | [] => []
  | [x] => x
  | x :: y :: xs => x ++ sep ++ joinSep sep (y :: xs)

/-- Text of one coordinate pair: `lon lat`. -/
def renderPair (pr : DecNum × DecNum) : List Char :=
  pr.1.render ++ ' ' :: pr.2.render

/-- Text of one ring: `(p1,p2,…)`. -/
def renderRing (r : List (DecNum × DecNum)) : List Char :=
  '(' :: joinSep [','] (r.map renderPair) ++ [')']

/-- Text of one polygon part: `((ring),(hole),…)`. -/
def renderPoly (rings : List (List (DecNum × DecNum))) : List Char :=
  '(' :: joinSep [','] (rings.map renderRing) ++ [')']

/-- Canonical WKT text of a multipolygon. -/
def renderMP (polys : List (List (List (DecNum × DecNum)))) : List Char :=
  mpHeader ++ '(' :: joinSep [','] (polys.map renderPoly) ++ [')']

/-- The parsed value of the first (exterior) ring of a polygon part. -/
def exteriorVals (part : List (List (DecNum × DecNum))) : List (ℚ × ℚ) :=
  part.headI.map (fun pr => (pr.1.val, pr.2.val))

/-- Properties of `plainChar`. -/
theorem plainChar_spec {c : Char} (h : plainChar c = true) :
    c ≠ '(' ∧ c ≠ ')' ∧ c ≠ ',' ∧ isPySpace c = false := by
  unfold plainChar at h
  simp only [Bool.not_eq_true', Bool.or_eq_false_iff, decide_eq_false_iff_not] at h
  exact ⟨h.1.1.1, h.1.1.2, h.1.2, h.2⟩

theorem digitChar_isDigit {k : Nat} (hk : k < 10) : (digitChar k).isDigit = true := by
  interval_cases k <;> rfl

theorem digitChar_plain {k : Nat} (hk : k < 10) : plainChar (digitChar k) = true := by
  interval_cases k <;> rfl

theorem digitChar_toNat {k : Nat} (hk : k < 10) : (digitChar k).toNat - 48 = k := by
  interval_cases k <;> rfl

theorem digitChar_not_dot {k : Nat} (hk : k < 10) : digitChar k ≠ '.' := by
  interval_cases k <;> decide

/-- All characters of a valid numeral's text are plain. -/
theorem render_plain {d : DecNum} (hv : d.valid) :
    ∀ c ∈ d.render, plainChar c = true := by
  obtain ⟨_, hip, hfp⟩ := hv
  intro c hc
  unfold DecNum.render at hc
  rcases List.mem_append.mp hc with hc | hc
  · rcases List.mem_append.mp hc with hc | hc
    · rcases hd : d.neg with _ | _
      · rw [hd] at hc
        simp at hc
      · rw [hd] at hc
        simp at hc
        rw [hc]
        rfl
    · obtain ⟨k, hk, hck⟩ := List.mem_map.mp hc
      rw [← hck]
      exact digitChar_plain (hip k hk)
  · by_cases hfpe : d.fp = []
    · rw [if_pos hfpe] at hc
      simp at hc
    · rw [if_neg hfpe] at hc
      rcases List.mem_cons.mp hc with hc | hc
      · rw [hc]
        rfl
      · obtain ⟨k, hk, hck⟩ := List.mem_map.mp hc
        rw [← hck]
        exact digitChar_plain (hfp k hk)

/-- A valid numeral's text is nonempty. -/
theorem render_ne_nil {d : DecNum} (hv : d.valid) : d.render ≠ [] := by
  obtain ⟨hip, _, _⟩ := hv
  unfold DecNum.render
  rcases hd : d.ip with _ | ⟨k, ks⟩
  · exact absurd hd hip
  · rcases d.neg <;> simp

/-- `dropWhile` is the identity when the head fails the predicate. -/
theorem dropWhile_eq_self_of_head {p : Char → Bool} {cs : List Char}
    (h : ∀ c, cs.head? = some c → p c = false) : cs.dropWhile p = cs := by
  cases cs with
  | nil => rfl
  | cons c cs' =>
    apply List.dropWhile_cons_of_neg
    simp [h c rfl]

/-- `pyStrip` fixes a string whose first and last characters are not
whitespace. -/
theorem pyStrip_eq_self_of_ends {cs : List Char}
    (h1 : ∀ c, cs.head? = some c → isPySpace c = false)
    (h2 : ∀ c, cs.getLast? = some c → isPySpace c = false) : pyStrip cs = cs := by
  unfold pyStrip
  rw [dropWhile_eq_self_of_head h1]
  rw [dropWhile_eq_self_of_head ?_, List.reverse_reverse]
  intro c hc
  rw [List.head?_reverse] at hc
  exact h2 c hc

/-- `pyStrip` fixes a whitespace-free string. -/
theorem pyStrip_eq_self {cs : List Char} (h : ∀ c ∈ cs, isPySpace c = false) :
    pyStrip cs = cs := by
  refine pyStrip_eq_self_of_ends ?_ ?_
  · intro c hc
    cases cs with
    | nil => simp at hc
    | cons a l =>
      simp at hc
      rw [← hc]
      exact h a (List.mem_cons_self _ _)
  · intro c hc
    exact h c (List.mem_of_mem_getLast? hc)

/-- `takeWhile` over a satisfied prefix followed by a failing head. -/
theorem takeWhile_append_all {p : Char → Bool} : ∀ {l r : List Char},
    (∀ c ∈ l, p c = true) → (∀ c, r.head? = some c → p c = false) →
    (l ++ r).takeWhile p = l
  | [], r, _, hr => by
    cases r with
    | nil => rfl
    | cons c rs =>
      rw [List.nil_append]
      apply List.takeWhile_cons_of_neg
      simp [hr c rfl]
  | a :: l', r, hl, hr => by
    rw [List.cons_append, List.takeWhile_cons_of_pos (hl a (List.mem_cons_self _ _))]
    rw [takeWhile_append_all (fun c hc => hl c (List.mem_cons_of_mem _ hc)) hr]

/-- `dropWhile` over a satisfied prefix followed by a failing head. -/
theorem dropWhile_append_all {p : Char → Bool} : ∀ {l r : List Char},
    (∀ c ∈ l, p c = true) → (∀ c, r.head? = some c → p c = false) →
    (l ++ r).dropWhile p = r
  | [], r, _, hr => by
    rw [List.nil_append]
    exact dropWhile_eq_self_of_head hr
  | a :: l', r, hl, hr => by
    rw [List.cons_append, List.dropWhile_cons_of_pos (hl a (List.mem_cons_self _ _))]
    exact dropWhile_append_all (fun c hc => hl c (List.mem_cons_of_mem _ hc)) hr

/-- `span` splits a satisfied prefix from a failing remainder. -/
theorem span_append_all {p : Char → Bool} {l r : List Char}
    (hl : ∀ c ∈ l, p c = true) (hr : ∀ c, r.head? = some c → p c = false) :
    (l ++ r).span p = (l, r) := by
  rw [List.span_eq_take_drop, takeWhile_append_all hl hr,
    dropWhile_append_all hl hr]

/-- `span` on an everywhere-satisfied string. -/
theorem span_all {p : Char → Bool} {l : List Char} (hl : ∀ c ∈ l, p c = true) :
    l.span p = (l, []) := by
  have h := span_append_all hl
    (fun c hc => by rw [List.head?_nil] at hc; exact Option.noConfusion hc)
  rwa [List.append_nil] at h

/-- Digit conversion commutes with rendering, any accumulator. -/
theorem foldl_digits : ∀ {ds : List Nat}, (∀ k ∈ ds, k < 10) → ∀ a : Nat,
    (ds.map digitChar).foldl (fun a c => 10 * a + (c.toNat - 48)) a =
      ds.foldl (fun a k => 10 * a + k) a
  | [], _, a => rfl
  | k :: ks, h, a => by
    rw [List.map_cons, List.foldl_cons, List.foldl_cons]
    rw [digitChar_toNat (h k (List.mem_cons_self _ _))]
    exact foldl_digits (fun x hx => h x (List.mem_cons_of_mem _ hx)) _

/-- `digitsToNat` of a rendered digit string. -/
theorem digitsToNat_render {ds : List Nat} (h : ∀ k ∈ ds, k < 10) :
    digitsToNat (ds.map digitChar) = digitsVal ds :=
  foldl_digits h 0

theorem pySign_neg (X : List Char) : pySign ('-' :: X) = (true, X) := rfl

theorem pySign_digit {k : Nat} (hk : k < 10) (rest : List Char) :
    pySign (digitChar k :: rest) = (false, digitChar k :: rest) := by
  interval_cases k <;> rfl

theorem digitChar_not_sign {k : Nat} (hk : k < 10) :
    digitChar k ≠ '+' ∧ digitChar k ≠ '-' := by
  interval_cases k <;> exact ⟨by decide, by decide⟩

/-- `pyFloat` parses the rendered text of a valid numeral to its value. -/
theorem pyFloat_render {d : DecNum} (hv : d.valid) :
    pyFloat d.render = some d.val := by
  obtain ⟨hip, hip10, hfp10⟩ := hv
  have hns : ∀ c ∈ d.render, isPySpace c = false :=
    fun c hc => (plainChar_spec (render_plain ⟨hip, hip10, hfp10⟩ c hc)).2.2.2
  have hDdig : ∀ c ∈ d.ip.map digitChar, Char.isDigit c = true := by
    intro c hc
    obtain ⟨k, hk, hck⟩ := List.mem_map.mp hc
    rw [← hck]
    exact digitChar_isDigit (hip10 k hk)
  have hFdig : ∀ c ∈ d.fp.map digitChar, Char.isDigit c = true := by
    intro c hc
    obtain ⟨k, hk, hck⟩ := List.mem_map.mp hc
    rw [← hck]
    exact digitChar_isDigit (hfp10 k hk)
  have hFhead : ∀ c,
      (if d.fp = [] then ([] : List Char) else '.' :: d.fp.map digitChar).head? = some c →
      Char.isDigit c = false := by
    intro c hc
    by_cases hfpe : d.fp = []
    · rw [if_pos hfpe] at hc
      simp at hc
    · rw [if_neg hfpe] at hc
      simp at hc
      rw [← hc]
      rfl
  -- the sign-stripped remainder and its span
  have hspan : ((d.ip.map digitChar) ++
      (if d.fp = [] then ([] : List Char) else '.' :: d.fp.map digitChar)).span Char.isDigit =
      (d.ip.map digitChar,
        if d.fp = [] then ([] : List Char) else '.' :: d.fp.map digitChar) :=
    span_append_all hDdig hFhead
  have hfrac : pyFrac (if d.fp = [] then ([] : List Char) else '.' :: d.fp.map digitChar) =
      (d.fp.map digitChar, []) := by
    by_cases hfpe : d.fp = []
    · rw [if_pos hfpe, hfpe]
      rfl
    · rw [if_neg hfpe]
      show (d.fp.map digitChar).span Char.isDigit = _
      exact span_all hFdig
  have hipD : d.ip.map digitChar ≠ [] := by
    rcases hipE : d.ip with _ | ⟨k, ks⟩
    · exact absurd hipE hip
    · simp
  have hmant : (digitsToNat (d.ip.map digitChar ++ d.fp.map digitChar) : ℚ) /
      ((10 : ℚ) ^ (d.fp.map digitChar).length) =
      (digitsVal (d.ip ++ d.fp) : ℚ) / ((10 : ℚ) ^ d.fp.length) := by
    rw [← List.map_append, digitsToNat_render ?_, List.length_map]
    intro k hk
    rcases List.mem_append.mp hk with hk | hk
    · exact hip10 k hk
    · exact hfp10 k hk
  have hsign : pySign d.render =
      (d.neg, (d.ip.map digitChar) ++
        (if d.fp = [] then ([] : List Char) else '.' :: d.fp.map digitChar)) := by
    unfold DecNum.render
    rcases hneg : d.neg with _ | _
    · rcases hipE : d.ip with _ | ⟨k, ks⟩
      · exact absurd hipE hip
      · have hk := hip10 k (by rw [hipE]; exact List.mem_cons_self _ _)
        simp only [Bool.false_eq_true, if_false, List.nil_append, List.map_cons,
          List.cons_append]
        rw [pySign_digit hk]
    · rfl
  unfold pyFloat
  rw [pyStrip_eq_self hns, hsign]
  dsimp only
  rw [hspan]
  dsimp only
  rw [hfrac]
  dsimp only
  rw [if_neg (fun hand => hipD hand.1)]
  rw [hmant]
  show some _ = some d.val
  unfold DecNum.val
  rcases hneg : d.neg with _ | _
  · rw [if_neg (by simp), if_neg (by simp), one_mul]
  · rw [if_pos rfl, if_pos rfl, neg_one_mul]

/-- `splitWsGo` accumulates a whitespace-free prefix. -/
theorem splitWsGo_nonspace : ∀ (a : List Char), (∀ c ∈ a, isPySpace c = false) →
    ∀ (rest cur : List Char), splitWsGo (a ++ rest) cur = splitWsGo rest (a.reverse ++ cur)
  | [], _, rest, cur => by simp
  | c :: a', h, rest, cur => by
    rw [List.cons_append, splitWsGo]
    rw [if_neg (by simp [h c (List.mem_cons_self _ _)])]
    rw [splitWsGo_nonspace a' (fun x hx => h x (List.mem_cons_of_mem _ hx)) rest (c :: cur)]
    simp

/-- `str.split()` of `a␣b` with `a`, `b` nonempty and whitespace-free. -/
theorem splitWs_pair {a b : List Char} (ha : a ≠ []) (hb : b ≠ [])
    (ha' : ∀ c ∈ a, isPySpace c = false) (hb' : ∀ c ∈ b, isPySpace c = false) :
    splitWs (a ++ ' ' :: b) = [a, b] := by
  unfold splitWs
  rw [splitWsGo_nonspace a ha' (' ' :: b) []]
  rw [splitWsGo]
  rw [if_pos (by rfl)]
  rw [if_neg (by simpa using ha)]
  rw [show (b : List Char) = b ++ [] from (List.append_nil b).symm]
  rw [splitWsGo_nonspace b hb' [] []]
  rw [splitWsGo]
  rw [if_neg (by simpa using hb)]
  simp

/-- `pyStrip` fixes `x␣y` when `x`, `y` are nonempty and whitespace-free. -/
theorem pyStrip_pair {x y : List Char} (hx : x ≠ []) (hy : y ≠ [])
    (hx' : ∀ c ∈ x, isPySpace c = false) (hy' : ∀ c ∈ y, isPySpace c = false) :
    pyStrip (x ++ ' ' :: y) = x ++ ' ' :: y := by
  refine pyStrip_eq_self_of_ends ?_ ?_
  · intro c hc
    rw [List.head?_append_of_ne_nil _ hx] at hc
    rcases x with _ | ⟨x0, xs⟩
    · exact absurd rfl hx
    · simp at hc
      rw [← hc]
      exact hx' x0 (List.mem_cons_self _ _)
  · intro c hc
    rw [List.getLast?_append_of_ne_nil _ (by simp : (' ' :: y) ≠ [])] at hc
    rw [show (' ' :: y) = [' '] ++ y from rfl, List.getLast?_append_of_ne_nil _ hy] at hc
    exact hy' c (List.mem_of_mem_getLast? hc)

/-- The pair loop parses one rendered coordinate pair to its value. -/
theorem parsePair_render {pr : DecNum × DecNum} (h1 : pr.1.valid) (h2 : pr.2.valid) :
    parsePair (renderPair pr) = .ok (some (pr.1.val, pr.2.val)) := by
  have hxns : ∀ c ∈ pr.1.render, isPySpace c = false :=
    fun c hc => (plainChar_spec (render_plain h1 c hc)).2.2.2
  have hyns : ∀ c ∈ pr.2.render, isPySpace c = false :=
    fun c hc => (plainChar_spec (render_plain h2 c hc)).2.2.2
  unfold parsePair renderPair
  rw [pyStrip_pair (render_ne_nil h1) (render_ne_nil h2) hxns hyns]
  rw [splitWs_pair (render_ne_nil h1) (render_ne_nil h2) hxns hyns]
  dsimp only
  rw [pyFloat_render h1, pyFloat_render h2]

/-- The ring loop parses a list of rendered pairs to their values. -/
theorem collectCoords_render : ∀ {prs : List (DecNum × DecNum)},
    (∀ pr ∈ prs, pr.1.valid ∧ pr.2.valid) →
    collectCoords (prs.map renderPair) = .ok (prs.map (fun pr => (pr.1.val, pr.2.val)))
  | [], _ => rfl
  | pr :: prs, h => by
    rw [List.map_cons]
    unfold collectCoords
    rw [parsePair_render (h pr (List.mem_cons_self _ _)).1 (h pr (List.mem_cons_self _ _)).2]
    rw [collectCoords_render (fun x hx => h x (List.mem_cons_of_mem _ hx))]
    rw [List.map_cons]

/-- `split(",")` of a comma-free string. -/
theorem splitOnComma_commaFree : ∀ (p : List Char), (∀ c ∈ p, c ≠ ',') →
    splitOnComma p = [p]
  | [], _ => rfl
  | c :: p', h => by
    rw [splitOnComma]
    rw [if_neg (h c (List.mem_cons_self _ _))]
    rw [splitOnComma_commaFree p' (fun x hx => h x (List.mem_cons_of_mem _ hx))]

/-- `split(",")` around the first comma. -/
theorem splitOnComma_append_comma : ∀ (p : List Char), (∀ c ∈ p, c ≠ ',') →
    ∀ X, splitOnComma (p ++ ',' :: X) = p :: splitOnComma X
  | [], _, X => by
    rw [List.nil_append, splitOnComma, if_pos rfl]
  | c :: p', h, X => by
    rw [List.cons_append, splitOnComma]
    rw [if_neg (h c (List.mem_cons_self _ _))]
    rw [splitOnComma_append_comma p' (fun x hx => h x (List.mem_cons_of_mem _ hx)) X]

/-- `split(",")` inverts comma-joining of comma-free fields. -/
theorem splitOnComma_joinSep : ∀ (ps : List (List Char)), ps ≠ [] →
    (∀ p ∈ ps, ∀ c ∈ p, c ≠ ',') → splitOnComma (joinSep [','] ps) = ps
  | [], h, _ => absurd rfl h
  | [p], _, h => by
    rw [joinSep]
    exact splitOnComma_commaFree p (h p (List.mem_cons_self _ _))
  | p :: q :: ps, _, h => by
    rw [joinSep, List.append_assoc, List.singleton_append]
    rw [splitOnComma_append_comma p (h p (List.mem_cons_self _ _))]
    rw [splitOnComma_joinSep (q :: ps) (by simp) (fun x hx => h x (List.mem_cons_of_mem _ hx))]

/-- Characters of a joined list come from the separator or a field. -/
theorem joinSep_chars {sep : List Char} : ∀ {ps : List (List Char)} {c : Char},
    c ∈ joinSep sep ps → c ∈ sep ∨ ∃ p ∈ ps, c ∈ p := by
  intro ps
  induction ps with
  | nil =>
    intro c hc
    simp [joinSep] at hc
  | cons p qs ih =>
    intro c hc
    cases qs with
    | nil =>
      rw [joinSep] at hc
      exact .inr ⟨p, List.mem_cons_self _ _, hc⟩
    | cons q qs' =>
      rw [joinSep] at hc
      rcases List.mem_append.mp hc with hc | hc
      · rcases List.mem_append.mp hc with hc | hc
        · exact .inr ⟨p, List.mem_cons_self _ _, hc⟩
        · exact .inl hc
      · rcases ih hc with hc | ⟨x, hx, hcx⟩
        · exact .inl hc
        · exact .inr ⟨x, List.mem_cons_of_mem _ hx, hcx⟩

/-- A nonempty join starts with its first field. -/
theorem joinSep_cons_eq (sep : List Char) (x : List Char) (xs : List (List Char)) :
    ∃ t, joinSep sep (x :: xs) = x ++ t := by
  cases xs with
  | nil => exact ⟨[], by rw [joinSep, List.append_nil]⟩
  | cons y ys => exact ⟨sep ++ joinSep sep (y :: ys), by rw [joinSep, List.append_assoc]⟩

/-- Every character of a rendered pair is benign for the scanners. -/
theorem renderPair_chars {pr : DecNum × DecNum} (h1 : pr.1.valid) (h2 : pr.2.valid) :
    ∀ c ∈ renderPair pr, c ≠ '(' ∧ c ≠ ')' ∧ c ≠ ',' := by
  intro c hc
  unfold renderPair at hc
  rcases List.mem_append.mp hc with hc | hc
  · have h := plainChar_spec (render_plain h1 c hc)
    exact ⟨h.1, h.2.1, h.2.2.1⟩
  · rcases List.mem_cons.mp hc with hc | hc
    · rw [hc]
      exact ⟨by decide, by decide, by decide⟩
    · have h := plainChar_spec (render_plain h2 c hc)
      exact ⟨h.1, h.2.1, h.2.2.1⟩

/-- Paren-free characters leave an open block untouched except for the
accumulated text. -/
theorem scan_plain_some : ∀ (cs : List Char), (∀ c ∈ cs, c ≠ '(' ∧ c ≠ ')') →
    ∀ (d : Int) (b : List Char) (a : List (List Char)),
      List.foldl scanStep ⟨d, some b, a⟩ cs = ⟨d, some (b ++ cs), a⟩
  | [], _, d, b, a => by simp
  | c :: cs', h, d, b, a => by
    rw [List.foldl_cons]
    have hc := h c (List.mem_cons_self _ _)
    have hstep : scanStep ⟨d, some b, a⟩ c = ⟨d, some (b ++ [c]), a⟩ := by
      unfold scanStep
      rw [if_neg hc.1, if_neg hc.2]
      rfl
    rw [hstep, scan_plain_some cs' (fun x hx => h x (List.mem_cons_of_mem _ hx)) d (b ++ [c]) a]
    simp

/-- Paren-free characters outside any block change nothing. -/
theorem scan_plain_none : ∀ (cs : List Char), (∀ c ∈ cs, c ≠ '(' ∧ c ≠ ')') →
    ∀ (d : Int) (a : List (List Char)),
      List.foldl scanStep ⟨d, none, a⟩ cs = ⟨d, none, a⟩
  | [], _, _, _ => rfl
  | c :: cs', h, d, a => by
    rw [List.foldl_cons]
    have hc := h c (List.mem_cons_self _ _)
    have hstep : scanStep ⟨d, none, a⟩ c = ⟨d, none, a⟩ := by
      unfold scanStep
      rw [if_neg hc.1, if_neg hc.2]
      rfl
    rw [hstep]
    exact scan_plain_none cs' (fun x hx => h x (List.mem_cons_of_mem _ hx)) d a

/-- Text that feeds through the top-level scanner at any depth `≥ 1`
without closing or opening a depth-0 block. -/
def Neutral1 (xs : List Char) : Prop :=
  ∀ (d : Int), 1 ≤ d → ∀ (b : List Char) (a : List (List Char)),
    List.foldl scanStep ⟨d, some b, a⟩ xs = ⟨d, some (b ++ xs), a⟩

theorem neutral1_nil : Neutral1 [] := by
  intro d _ b a
  simp

theorem neutral1_plain {xs : List Char} (h : ∀ c ∈ xs, c ≠ '(' ∧ c ≠ ')') :
    Neutral1 xs :=
  fun d _ b a => scan_plain_some xs h d b a

theorem neutral1_append {xs ys : List Char} (hx : Neutral1 xs) (hy : Neutral1 ys) :
    Neutral1 (xs ++ ys) := by
  intro d hd b a
  rw [List.foldl_append, hx d hd b a, hy d hd (b ++ xs) a, List.append_assoc]

/-- A balanced paren group with paren-free interior is neutral. -/
theorem neutral1_group {body : List Char} (h : ∀ c ∈ body, c ≠ '(' ∧ c ≠ ')') :
    Neutral1 ('(' :: body ++ [')']) := by
  intro d hd b a
  rw [List.cons_append, List.foldl_cons]
  have hopen : scanStep ⟨d, some b, a⟩ '(' = ⟨d + 1, some (b ++ ['(']), a⟩ := by
    unfold scanStep
    rw [if_pos rfl, if_neg (by omega : ¬ (d = 0))]
    rfl
  rw [hopen, List.foldl_append, scan_plain_some body h (d + 1) _ a, List.foldl_cons]
  have hclose : scanStep ⟨d + 1, some (b ++ ['('] ++ body), a⟩ ')' =
      ⟨d, some (b ++ ['('] ++ body ++ [')']), a⟩ := by
    unfold scanStep
    rw [if_neg (by decide : ¬ ((')' : Char) = '(')), if_pos rfl,
      if_neg (by omega : ¬ (d + 1 - 1 = 0))]
    have hd1 : d + 1 - 1 = d := by omega
    rw [hd1]
    rfl
  rw [hclose]
  simp

/-- Joining neutral fields with commas is neutral. -/
theorem neutral1_joinSep : ∀ {xs : List (List Char)}, (∀ x ∈ xs, Neutral1 x) →
    Neutral1 (joinSep [','] xs) := by
  intro xs
  induction xs with
  | nil =>
    intro _
    exact neutral1_nil
  | cons x ys ih =>
    intro h
    cases ys with
    | nil =>
      rw [joinSep]
      exact h x (List.mem_cons_self _ _)
    | cons y ys' =>
      rw [joinSep]
      refine neutral1_append (neutral1_append (h x (List.mem_cons_self _ _)) ?_)
        (ih (fun z hz => h z (List.mem_cons_of_mem _ hz)))
      exact neutral1_plain (by intro c hc; simp at hc; rw [hc]; exact ⟨by decide, by decide⟩)

/-- Scanning one complete block from depth 0 pushes it onto the
accumulator. -/
theorem scan_block {inner : List Char} (hi : Neutral1 inner) (a : List (List Char)) :
    List.foldl scanStep ⟨0, none, a⟩ ('(' :: inner ++ [')']) =
      ⟨0, none, ('(' :: inner ++ [')']) :: a⟩ := by
  rw [List.cons_append, List.foldl_cons]
  have hopen : scanStep ⟨0, none, a⟩ '(' = ⟨1, some ['('], a⟩ := by
    unfold scanStep
    rw [if_pos rfl, if_pos rfl]
    rfl
  rw [hopen, List.foldl_append, hi 1 (by omega) ['('] a, List.foldl_cons]
  have hclose : scanStep ⟨1, some (['('] ++ inner), a⟩ ')' =
      ⟨0, none, (['('] ++ inner ++ [')']) :: a⟩ := by
    unfold scanStep
    rw [if_neg (by decide : ¬ ((')' : Char) = '(')), if_pos rfl,
      if_pos (by omega : (1 : Int) - 1 = 0)]
    have hd1 : (1 : Int) - 1 = 0 := by omega
    rw [hd1]
  rw [hclose]
  simp

/-- Scanning a comma-joined sequence of blocks collects them in order. -/
theorem scan_joinSep : ∀ (ps : List (List Char)),
    (∀ p ∈ ps, ∃ inner, p = '(' :: inner ++ [')'] ∧ Neutral1 inner) →
    ∀ (a : List (List Char)),
      List.foldl scanStep ⟨0, none, a⟩ (joinSep [','] ps) = ⟨0, none, ps.reverse ++ a⟩
  | [], _, a => by simp [joinSep]
  | [p], h, a => by
    obtain ⟨inner, hp, hi⟩ := h p (List.mem_cons_self _ _)
    rw [joinSep, hp, scan_block hi a]
    simp
  | p :: q :: ps, h, a => by
    obtain ⟨inner, hp, hi⟩ := h p (List.mem_cons_self _ _)
    rw [joinSep, List.append_assoc, List.foldl_append, hp, scan_block hi a]
    rw [List.singleton_append, List.foldl_cons]
    have hcomma : scanStep ⟨0, none, ('(' :: inner ++ [')']) :: a⟩ ',' =
        ⟨0, none, ('(' :: inner ++ [')']) :: a⟩ := by
      unfold scanStep
      rw [if_neg (by decide : ¬ ((',' : Char) = '(')), if_neg (by decide : ¬ ((',' : Char) = ')'))]
      rfl
    rw [hcomma]
    rw [scan_joinSep (q :: ps) (fun z hz => h z (List.mem_cons_of_mem _ hz)) _]
    rw [← hp]
    simp

/-- `scanBlocks` recovers the blocks of a comma-joined block sequence. -/
theorem scanBlocks_joinSep (ps : List (List Char))
    (h : ∀ p ∈ ps, ∃ inner, p = '(' :: inner ++ [')'] ∧ Neutral1 inner) :
    scanBlocks (joinSep [','] ps) = ps := by
  unfold scanBlocks
  rw [scan_joinSep ps h []]
  simp

/-- The ring scan accumulates a paren-free body until the closing paren. -/
theorem extract_aux : ∀ (body : List Char), (∀ c ∈ body, c ≠ '(' ∧ c ≠ ')') →
    ∀ (acc rest : List Char),
      extractFirstRing (body ++ ')' :: rest) 1 (some acc) = some (acc ++ body)
  | [], _, acc, rest => by
    rw [List.nil_append, extractFirstRing]
    rw [if_neg (by decide : ¬ ((')' : Char) = '(')), if_pos rfl,
      if_pos (by omega : (1 : Int) - 1 = 0)]
    simp
  | c :: body', h, acc, rest => by
    rw [List.cons_append, extractFirstRing]
    have hc := h c (List.mem_cons_self _ _)
    rw [if_neg hc.1, if_neg hc.2]
    show extractFirstRing (body' ++ ')' :: rest) 1 (some (acc ++ [c])) = _
    rw [extract_aux body' (fun x hx => h x (List.mem_cons_of_mem _ hx)) (acc ++ [c]) rest]
    simp

/-- The ring scan finds the first paren group's paren-free interior. -/
theorem extract_first {body rest : List Char} (h : ∀ c ∈ body, c ≠ '(' ∧ c ≠ ')') :
    extractFirstRing ('(' :: body ++ ')' :: rest) 0 none = some body := by
  rw [List.cons_append, extractFirstRing, if_pos rfl]
  show extractFirstRing (body ++ ')' :: rest) (0 + 1) (some []) = some body
  rw [show (0 : Int) + 1 = 1 by omega]
  rw [extract_aux body h [] rest]
  simp

/-- The interior of a rendered ring is paren-free. -/
theorem renderRing_body_chars {r : List (DecNum × DecNum)}
    (h : ∀ pr ∈ r, pr.1.valid ∧ pr.2.valid) :
    ∀ c ∈ joinSep [','] (r.map renderPair), c ≠ '(' ∧ c ≠ ')' := by
  intro c hc
  rcases joinSep_chars hc with hc | ⟨p, hp, hcp⟩
  · simp at hc
    rw [hc]
    exact ⟨by decide, by decide⟩
  · obtain ⟨pr, hpr, hppr⟩ := List.mem_map.mp hp
    rw [← hppr] at hcp
    have hk := renderPair_chars (h pr hpr).1 (h pr hpr).2 c hcp
    exact ⟨hk.1, hk.2.1⟩

/-- The interior of a rendered polygon (its comma-joined rings) is
neutral for the top-level scanner. -/
theorem renderPoly_inner_neutral {rings : List (List (DecNum × DecNum))}
    (h : ∀ ring ∈ rings, ∀ pr ∈ ring, pr.1.valid ∧ pr.2.valid) :
    Neutral1 (joinSep [','] (rings.map renderRing)) := by
  refine neutral1_joinSep ?_
  intro x hx
  obtain ⟨ring, hring, hrx⟩ := List.mem_map.mp hx
  rw [← hrx]
  unfold renderRing
  exact neutral1_group (renderRing_body_chars (h ring hring))

/-- Processing a rendered polygon block yields the values of its first
ring (holes dropped). -/
theorem processBlock_renderPoly {r0 : List (DecNum × DecNum)}
    {rest : List (List (DecNum × DecNum))}
    (hval : ∀ ring ∈ r0 :: rest, ∀ pr ∈ ring, pr.1.valid ∧ pr.2.valid)
    (hr0 : r0 ≠ []) :
    processBlock (renderPoly (r0 :: rest)) =
      .ok (some (r0.map (fun pr => (pr.1.val, pr.2.val)))) := by
  have hv0 : ∀ pr ∈ r0, pr.1.valid ∧ pr.2.valid := hval r0 (List.mem_cons_self _ _)
  unfold processBlock renderPoly
  have hstrip : pyStrip ('(' :: joinSep [','] ((r0 :: rest).map renderRing) ++ [')']) =
      '(' :: joinSep [','] ((r0 :: rest).map renderRing) ++ [')'] := by
    refine pyStrip_eq_self_of_ends ?_ ?_
    · intro c hc
      simp at hc
      rw [← hc]
      rfl
    · intro c hc
      rw [show ('(' :: joinSep [','] ((r0 :: rest).map renderRing) ++ [')']) =
        ('(' :: joinSep [','] ((r0 :: rest).map renderRing)) ++ [')'] from rfl] at hc
      rw [List.getLast?_concat] at hc
      cases hc
      rfl
  dsimp only
  rw [hstrip]
  have h1 : ('(' :: joinSep [','] ((r0 :: rest).map renderRing) ++ [')']).head? = some '(' := rfl
  rw [if_pos h1]
  have h2 : ('(' :: joinSep [','] ((r0 :: rest).map renderRing) ++ [')']).drop 1 =
      joinSep [','] ((r0 :: rest).map renderRing) ++ [')'] := rfl
  rw [h2]
  have h3 : (joinSep [','] ((r0 :: rest).map renderRing) ++ [')']).getLast? = some ')' :=
    List.getLast?_concat _
  rw [if_pos h3, List.dropLast_concat]
  -- the first ring group
  rw [List.map_cons]
  obtain ⟨t, ht⟩ := joinSep_cons_eq [','] (renderRing r0) (rest.map renderRing)
  rw [ht]
  unfold renderRing
  rw [show ('(' :: joinSep [','] (r0.map renderPair) ++ [')']) ++ t =
    '(' :: joinSep [','] (r0.map renderPair) ++ ')' :: t by simp]
  rw [extract_first (renderRing_body_chars hv0)]
  dsimp only
  rw [splitOnComma_joinSep (r0.map renderPair) (by simpa using hr0) ?_]
  · rw [collectCoords_render hv0]
    dsimp only
    rw [if_neg (by simpa using hr0)]
  · intro p hp c hc
    obtain ⟨pr, hpr, hppr⟩ := List.mem_map.mp hp
    rw [← hppr] at hc
    exact (renderPair_chars (hv0 pr hpr).1 (hv0 pr hpr).2 c hc).2.2

/-- Processing the rendered polygon blocks yields one exterior ring per
part, in order. -/
theorem processBlocks_renderPoly : ∀ {polys : List (List (List (DecNum × DecNum)))},
    (∀ part ∈ polys, ∀ ring ∈ part, ∀ pr ∈ ring, pr.1.valid ∧ pr.2.valid) →
    (∀ part ∈ polys, part ≠ [] ∧ part.headI ≠ []) →
    processBlocks (polys.map renderPoly) = .ok (polys.map exteriorVals)
  | [], _, _ => rfl
  | [] :: _, _, hne => absurd rfl (hne [] (List.mem_cons_self _ _)).1
  | (r0 :: rest) :: polys, hval, hne => by
    rw [List.map_cons]
    unfold processBlocks
    rw [processBlock_renderPoly (hval (r0 :: rest) (List.mem_cons_self _ _))
      ((hne (r0 :: rest) (List.mem_cons_self _ _)).2)]
    dsimp only
    rw [processBlocks_renderPoly (fun x hx => hval x (List.mem_cons_of_mem _ hx))
      (fun x hx => hne x (List.mem_cons_of_mem _ hx))]
    rw [List.map_cons]
    rfl

/-- A string starts with itself (followed by anything). -/
theorem pyStartsWith_append : ∀ (l r : List Char), pyStartsWith l (l ++ r) = true
  | [], _ => rfl
  | c :: l', r => by
    rw [List.cons_append, pyStartsWith]
    simp [pyStartsWith_append l' r]

/-- The last character of comma-joined `)`-terminated fields is `)`. -/
theorem joinSep_polys_getLast : ∀ (ps : List (List Char)), ps ≠ [] →
    (∀ p ∈ ps, p.getLast? = some ')') → (joinSep [','] ps).getLast? = some ')'
  | [], h, _ => absurd rfl h
  | [p], _, h => by
    rw [joinSep]
    exact h p (List.mem_cons_self _ _)
  | p :: q :: ps, _, h => by
    rw [joinSep]
    have hrec := joinSep_polys_getLast (q :: ps) (by simp)
      (fun x hx => h x (List.mem_cons_of_mem _ hx))
    have hne : joinSep [','] (q :: ps) ≠ [] := by
      intro h0
      rw [h0] at hrec
      exact Option.noConfusion hrec
    rw [List.append_assoc, List.getLast?_append_of_ne_nil _ (by simp [hne])]
    rw [List.getLast?_append_of_ne_nil _ hne]
    exact hrec

/-- A rendered polygon ends with `)`. -/
theorem renderPoly_getLast (rings : List (List (DecNum × DecNum))) :
    (renderPoly rings).getLast? = some ')' := by
  unfold renderPoly
  rw [show ('(' :: joinSep [','] (rings.map renderRing) ++ [')']) =
    ('(' :: joinSep [','] (rings.map renderRing)) ++ [')'] from rfl]
  exact List.getLast?_concat _

/-- `parse_wkt_multipolygon` on the canonical text of a multipolygon
returns exactly the exterior rings' values, one per part. -/
theorem parseWktCore_renderMP (polys : List (List (List (DecNum × DecNum))))
    (hval : ∀ part ∈ polys, ∀ ring ∈ part, ∀ pr ∈ ring, pr.1.valid ∧ pr.2.valid)
    (hne : ∀ part ∈ polys, part ≠ [] ∧ part.headI ≠ []) :
    parseWktCore (renderMP polys) = .ok (polys.map exteriorVals) := by
  unfold parseWktCore renderMP
  dsimp only
  have hstrip0 : pyStrip (mpHeader ++ '(' :: joinSep [','] (polys.map renderPoly) ++ [')']) =
      mpHeader ++ '(' :: joinSep [','] (polys.map renderPoly) ++ [')'] := by
    refine pyStrip_eq_self_of_ends ?_ ?_
    · intro c hc
      rw [show (mpHeader ++ '(' :: joinSep [','] (polys.map renderPoly) ++ [')']).head? =
        some 'M' from rfl] at hc
      cases hc
      rfl
    · intro c hc
      rw [List.getLast?_concat] at hc
      cases hc
      rfl
  rw [hstrip0]
  rw [List.append_assoc mpHeader ('(' :: joinSep [','] (polys.map renderPoly)) [')']]
  have hsw : pyStartsWith mpHeader
      (pyUpper (mpHeader ++ (('(' :: joinSep [','] (polys.map renderPoly)) ++ [')']))) = true := by
    unfold pyUpper
    rw [List.map_append Char.toUpper mpHeader
      (('(' :: joinSep [','] (polys.map renderPoly)) ++ [')'])]
    have hmp : List.map Char.toUpper mpHeader = mpHeader := by decide
    rw [hmp]
    exact pyStartsWith_append mpHeader _
  rw [if_pos hsw]
  rw [List.drop_left mpHeader (('(' :: joinSep [','] (polys.map renderPoly)) ++ [')'])]
  have hstrip1 : pyStrip (('(' :: joinSep [','] (polys.map renderPoly)) ++ [')']) =
      ('(' :: joinSep [','] (polys.map renderPoly)) ++ [')'] := by
    refine pyStrip_eq_self_of_ends ?_ ?_
    · intro c hc
      rw [show ((('(' :: joinSep [','] (polys.map renderPoly)) ++ [')'])).head? =
        some '(' from rfl] at hc
      cases hc
      rfl
    · intro c hc
      rw [List.getLast?_concat] at hc
      cases hc
      rfl
  rw [hstrip1]
  have hhead : (('(' :: joinSep [','] (polys.map renderPoly)) ++ [')']).head? = some '(' := rfl
  have hlast : (('(' :: joinSep [','] (polys.map renderPoly)) ++ [')']).getLast? = some ')' :=
    List.getLast?_concat _
  rw [if_pos ⟨hhead, hlast⟩]
  have hdrop : (('(' :: joinSep [','] (polys.map renderPoly)) ++ [')']).drop 1 =
      joinSep [','] (polys.map renderPoly) ++ [')'] := rfl
  rw [hdrop, List.dropLast_concat]
  have hshape : ∀ p ∈ polys.map renderPoly,
      ∃ inner, p = '(' :: inner ++ [')'] ∧ Neutral1 inner := by
    intro p hp
    obtain ⟨part, hpart, hpp⟩ := List.mem_map.mp hp
    refine ⟨joinSep [','] (part.map renderRing), ?_, ?_⟩
    · rw [← hpp]
      rfl
    · exact renderPoly_inner_neutral (hval part hpart)
  cases hpolys : polys with
  | nil =>
    rfl
  | cons p ps =>
    have hJstrip : pyStrip (joinSep [','] ((p :: ps).map renderPoly)) =
        joinSep [','] ((p :: ps).map renderPoly) := by
      refine pyStrip_eq_self_of_ends ?_ ?_
      · intro c hc
        rw [List.map_cons] at hc
        obtain ⟨t, ht⟩ := joinSep_cons_eq [','] (renderPoly p) (ps.map renderPoly)
        rw [ht] at hc
        rw [List.head?_append_of_ne_nil _ (by unfold renderPoly; simp)] at hc
        rw [show (renderPoly p).head? = some '(' from rfl] at hc
        cases hc
        rfl
      · intro c hc
        rw [joinSep_polys_getLast ((p :: ps).map renderPoly) (by simp)
          (fun x hx => by
            obtain ⟨part, _, hpp⟩ := List.mem_map.mp hx
            rw [← hpp]
            exact renderPoly_getLast part)] at hc
        cases hc
        rfl
    rw [← hpolys] at hJstrip ⊢
    rw [hJstrip]
    rw [scanBlocks_joinSep (polys.map renderPoly) hshape]
    exact processBlocks_renderPoly hval hne

/-- C5: for every multipolygon with `N` parts, arbitrary valid decimal
coordinates, each part with a nonempty first ring, parsing the canonical
WKT text returns exactly `N` rings — the exterior ring of each part, with
its `(lon, lat)` pairs in textual order (holes dropped). -/
theorem parse_wkt_multipolygon_spec (polys : List (List (List (DecNum × DecNum))))
    (hval : ∀ part ∈ polys, ∀ ring ∈ part, ∀ pr ∈ ring, pr.1.valid ∧ pr.2.valid)
    (hne : ∀ part ∈ polys, part ≠ [] ∧ part.headI ≠ []) :
    parse_wkt_multipolygon (String.mk (renderMP polys)) = .ok (polys.map exteriorVals) ∧
    (polys.map exteriorVals).length = polys.length := by
  constructor
  · show parseWktCore (renderMP polys) = _
    exact parseWktCore_renderMP polys hval hne
  · exact List.length_map _ _

/-- C5 (witness): the one-part multipolygon `MULTIPOLYGON(((1 2)))`. -/
theorem parse_wkt_multipolygon_spec_witness :
    parse_wkt_multipolygon (String.mk (renderMP [[[(⟨false, [1], []⟩, ⟨false, [2], []⟩)]]])) =
      .ok [[((1 : ℚ), (2 : ℚ))]] ∧
    String.mk (renderMP [[[(⟨false, [1], []⟩, ⟨false, [2], []⟩)]]]) = "MULTIPOLYGON(((1 2)))" := by
  constructor
  · have h := (parse_wkt_multipolygon_spec [[[(⟨false, [1], []⟩, ⟨false, [2], []⟩)]]]
      (by intro part hp ring hr pr hpr
          simp at hp
          subst hp
          simp at hr
          subst hr
          simp at hpr
          subst hpr
          exact ⟨⟨by simp, by simp, by simp⟩, ⟨by simp, by simp, by simp⟩⟩)
      (by intro part hp
          simp at hp
          subst hp
          exact ⟨by simp, by simp⟩)).1
    rw [h]
    rfl
  · rfl
